import Mathlib

/-!
Shallow embedding of the wplace map-overlay compression codec
(`compress.ts`): the interval builder `rowsToV1`, the progression
compactor `v1ToV2IfPossible`, the encoder `compactFromRows`, the decoder
`expandCompact` and the point query `queryOneCompact`, together with
theorems checking the specification's claims about them.

Modelling conventions, applied throughout:
* JavaScript numbers hold exact integers here, so every numeric field is
  an `Int`.
* `localeCompare` ties are modelled by the code-point lexicographic order
  on the string's character list (`String.data`), a strict total order.
* The JS `Map` preserves insertion order; it is modelled by an
  association list to which new keys are appended at the end.
* The template-literal map key `cityId + "|" + name + "|" + countryId`
  identifies exactly the triple `(cityId, name, countryId)`: the two
  numeric segments stringify without `"|"`, so the first and last `"|"`
  of the key delimit them and the triple is recoverable.  The key is
  therefore modelled by the triple itself, and likewise the sub key
  `id + "|" + number + "|" + tileY` (all three segments numeric) by its
  triple; the `Number(...)` re-parse in the source recovers the same
  numbers.
* `Array.prototype.sort` is stable with a consistent comparator; it is
  modelled by `List.insertionSort`, which is also stable.
* A thrown exception is modelled by `Except.error`; the heap mutations
  performed before a throw are discarded with the throw, exactly as the
  caller of the throwing function observes.
* A `CompactDocument` is the list of its blobs: the source's
  `Array.isArray(compact) ? compact : [compact]` normalization means a
  single-blob document stands for its one-element list, so the decoder
  and the query are embedded over `List Blob`.
-/

namespace Wplace

/-- A placement record (`RawRow` in the source); `coord` is flattened into
the two tile fields. -/
structure RawRow where
  id : Int
  cityId : Int
  name : String
  number : Int
  countryId : Int
  tileX : Int
  tileY : Int
deriving DecidableEq

/-- A Tier-1 interval entry (`V1Entry`). -/
structure V1Entry where
  id : Int
  n : Int
  y : Int
  xs : Int
  xe : Int
deriving DecidableEq

/-- A Tier-1 blob (`V1Blob`). -/
structure V1Blob where
  c : Int
  n : String
  id : Int
  e : List V1Entry
deriving DecidableEq

/-- A Tier-2 progression run (`V2Run`). -/
structure V2Run where
  x0 : Int
  k : Int
  id0 : Int
  n0 : Int
deriving DecidableEq

/-- A compact blob as it sits in the JSON document.  The decoder and the
query sniff the shape dynamically (`Array.isArray(x.seq)`, then
`Array.isArray(x.e)`), so a blob object may carry an `e` array, a `seq`
array, both, or neither; an absent (or non-array) field is `none`.  The
`y` and `s` fields are only ever read on the Tier-2 path, so a Tier-1
blob keeps the defaults. -/
structure Blob where
  c : Int
  n : String
  id : Int
  y : Int := 0
  s : Int := 0
  e : Option (List V1Entry) := none
  seq : Option (List V2Run) := none
deriving DecidableEq

/-- The query result object returned by `queryOneCompact`. -/
structure Hit where
  cityId : Int
  name : String
  countryId : Int
  id : Int
  number : Int
  y : Int
  xs : Int
  xe : Int
  format : String
deriving DecidableEq

/-! ## Orders used by the source's sort calls -/

/-- Code-point key standing in for `localeCompare`. -/
def nameKey (s : String) : List Char := s.data

/-- Sort key of the decoder's canonical sort:
`(cityId, countryId, name, tileY, tileX, id, number)`. -/
def rowKey (r : RawRow) :
    Int ×ₗ Int ×ₗ List Char ×ₗ Int ×ₗ Int ×ₗ Int ×ₗ Int :=
  toLex (r.cityId, toLex (r.countryId, toLex (nameKey r.name,
    toLex (r.tileY, toLex (r.tileX, toLex (r.id, r.number))))))

/-- The decoder's row comparator `a.cityId - b.cityId || ...` as a
lexicographic order. -/
def rowLE (a b : RawRow) : Prop := rowKey a ≤ rowKey b

instance : DecidableRel rowLE := fun a b => by unfold rowLE; infer_instance

/-- Sort key of the entry sort inside `rowsToV1`:
`(id, n, y, xs, xe)`. -/
def entryKey (a : V1Entry) : Int ×ₗ Int ×ₗ Int ×ₗ Int ×ₗ Int :=
  toLex (a.id, toLex (a.n, toLex (a.y, toLex (a.xs, a.xe))))

/-- The entry comparator `a.id - b.id || a.n - b.n || ...`. -/
def entryLE (a b : V1Entry) : Prop := entryKey a ≤ entryKey b

instance : DecidableRel entryLE := fun a b => by unfold entryLE; infer_instance

/-- Sort key of the blob sort at the end of `rowsToV1`:
`(c, id, localeCompare n)`. -/
def blobKey (b : V1Blob) : Int ×ₗ Int ×ₗ List Char :=
  toLex (b.c, toLex (b.id, nameKey b.n))

/-- The blob comparator `a.c - b.c || a.id - b.id || a.n.localeCompare(b.n)`. -/
def blobLE (a b : V1Blob) : Prop := blobKey a ≤ blobKey b

instance : DecidableRel blobLE := fun a b => by unfold blobLE; infer_instance

/-- The comparator of `xs.slice().sort((a, b) => a - b)`. -/
def intLE (a b : Int) : Prop := a ≤ b

instance : DecidableRel intLE := fun a b => by unfold intLE; infer_instance

/-- The comparator of the entry pre-sort in `v1ToV2IfPossible`
(`(a, b) => a.xs - b.xs`). -/
def xsLE (a b : V1Entry) : Prop := a.xs ≤ b.xs

instance : DecidableRel xsLE := fun a b => by unfold xsLE; infer_instance

def sortRows : List RawRow → List RawRow := List.insertionSort rowLE

def sortEntries : List V1Entry → List V1Entry := List.insertionSort entryLE

def sortBlobs : List V1Blob → List V1Blob := List.insertionSort blobLE

def sortInts : List Int → List Int := List.insertionSort intLE

def sortByXs : List V1Entry → List V1Entry := List.insertionSort xsLE

/-- The integer list `[lo, lo+1, ..., hi]`, empty when `hi < lo`: the
image of a JS loop `for (let x = lo; x <= hi; x++)`. -/
def intRange (lo hi : Int) : List Int :=
  (List.range (hi + 1 - lo).toNat).map (fun (i : Nat) => lo + (i : Int))

/-! ## Interval builder (`rowsToV1`, source lines 95-145) -/

/-- The group map key `cityId|name|countryId`, as the triple it
identifies. -/
def metaOf (r : RawRow) : Int × String × Int := (r.cityId, r.name, r.countryId)

/-- The bucket key `id|number|tileY`, as the triple it identifies. -/
def subOf (r : RawRow) : Int × Int × Int := (r.id, r.number, r.tileY)

/-- One group's bucket map: sub key to the pushed `tileX` values, in
insertion order. -/
abbrev Bucket := List ((Int × Int × Int) × List Int)

/-- The group map: meta key to bucket, in insertion order.  The source
also stores `c`, `n`, `id` alongside the bucket, but those are exactly
the components of the meta key. -/
abbrev Groups := List ((Int × String × Int) × Bucket)

/-- `arr = g.bucket.get(key) ?? []; arr.push(tileX); g.bucket.set(key, arr)`. -/
def pushBucket (b : Bucket) (k : Int × Int × Int) (x : Int) : Bucket :=
  match b with
  | [] => [(k, [x])]
  | (k0, xs) :: rest =>
    if k0 = k then (k0, xs ++ [x]) :: rest
    else (k0, xs) :: pushBucket rest k x

/-- Processing of one row by the grouping loop of `rowsToV1`. -/
def insertRow (gs : Groups) (r : RawRow) : Groups :=
  match gs with
  | [] => [(metaOf r, [(subOf r, [r.tileX])])]
  | (m, b) :: rest =>
    if m = metaOf r then (m, pushBucket b (subOf r) r.tileX) :: rest
    else (m, b) :: insertRow rest r

/-- The grouping loop of `rowsToV1` over all rows. -/
def groupRows (rows : List RawRow) : Groups := rows.foldl insertRow []

/-- The run-merging loop over a sorted column list: `start`/`prev` hold
the open interval, each following value either extends it by one or
closes it and opens a new one; the final interval is always emitted. -/
def mergeRunsAux (rid nn yy : Int) (start prev : Int) : List Int → List V1Entry
  | [] => [⟨rid, nn, yy, start, prev⟩]
  | cur :: rest =>
    if cur = prev + 1 then mergeRunsAux rid nn yy start cur rest
    else ⟨rid, nn, yy, start, prev⟩ :: mergeRunsAux rid nn yy cur cur rest

/-- Entries produced from one bucket: sort the pushed columns ascending,
then merge consecutive values into intervals. -/
def entriesOfBucket (k : Int × Int × Int) (xsArr : List Int) : List V1Entry :=
  match sortInts xsArr with
  | [] => []
  | x :: rest => mergeRunsAux k.1 k.2.1 k.2.2 x x rest

/-- One Tier-1 blob from one group: entries of all buckets, sorted by
`(id, n, y, xs, xe)`. -/
def blobOfGroup (m : Int × String × Int) (b : Bucket) : V1Blob :=
  ⟨m.1, m.2.1, m.2.2, sortEntries (b.flatMap (fun p => entriesOfBucket p.1 p.2))⟩

/-- The interval builder `rowsToV1`: group, merge, sort entries, sort
blobs by `(c, id, n)`. -/
def rowsToV1 (rows : List RawRow) : List V1Blob :=
  sortBlobs ((groupRows rows).map (fun p => blobOfGroup p.1 p.2))

/-! ## Progression compactor (`v1ToV2IfPossible`, source lines 147-181) -/

/-- The three step conditions `xsOK && idOK && nOK` between consecutive
sorted entries. -/
def chainOK (s : Int) (prev cur : V1Entry) : Prop :=
  cur.xs = prev.xs + s ∧ cur.id = prev.id + 1 ∧ cur.n = prev.n + 1

instance : ∀ s p c, Decidable (chainOK s p c) := fun s p c => by
  unfold chainOK; infer_instance

/-- The run-building loop: `curStart` is the entry opening the current
run, `k` the number of entries absorbed so far, `prev` the previous
entry; a failed step flushes the run and opens a new one, and the last
run is always flushed. -/
def buildRunsAux (s : Int) (curStart : V1Entry) (k : Int) (prev : V1Entry) :
    List V1Entry → List V2Run
  | [] => [⟨curStart.xs, k, curStart.id, curStart.n⟩]
  | cur :: rest =>
    if chainOK s prev cur then buildRunsAux s curStart (k + 1) cur rest
    else ⟨curStart.xs, k, curStart.id, curStart.n⟩ :: buildRunsAux s cur 1 cur rest

/-- Runs of the (already `xs`-sorted) entry list. -/
def buildRuns (s : Int) : List V1Entry → List V2Run
  | [] => []
  | e :: rest => buildRunsAux s e 1 e rest

/-- The progression compactor: an empty group becomes the empty Tier-2
sentinel; otherwise every entry must share the first entry's `y` and
have width `s`, the runs are built over the `xs`-sorted entries, and the
result is accepted only when `runs.length === 1` or
`runs.length * 2 <= v1.e.length`. -/
def v1ToV2IfPossible (v1 : V1Blob) (s : Int) : Option Blob :=
  match v1.e with
  | [] => some { c := v1.c, n := v1.n, id := v1.id, y := 0, s := s, seq := some [] }
  | e0 :: _ =>
    if v1.e.all (fun en => decide (en.y = e0.y) && decide (en.xe - en.xs + 1 = s)) then
      let runs := buildRuns s (sortByXs v1.e)
      if runs.length = 1 ∨ 2 * runs.length ≤ v1.e.length then
        some { c := v1.c, n := v1.n, id := v1.id, y := e0.y, s := s, seq := some runs }
      else none
    else none

/-- A `V1Blob` as the document blob it is serialized to. -/
def V1Blob.toBlob (b : V1Blob) : Blob := { c := b.c, n := b.n, id := b.id, e := some b.e }

/-- The encoder `compactFromRows`: Tier-1 via `rowsToV1`, then per group
the Tier-2 attempt, keeping the Tier-1 blob when it returns null. -/
def compactFromRows (rows : List RawRow) (preferS : Int) : List Blob :=
  (rowsToV1 rows).map (fun b => (v1ToV2IfPossible b preferS).getD b.toBlob)

/-! ## Decoder (`expandCompact`, source lines 193-250) -/

/-- Expansion of one Tier-2 run: for `i` in `[0, k)`, the member entry
starts at `x0 + i*s`, spans `s` columns, and carries `id0 + i`,
`n0 + i`. -/
def expandRun (c : Int) (nm : String) (cid y s : Int) (r : V2Run) : List RawRow :=
  (intRange 0 (r.k - 1)).flatMap (fun i =>
    (intRange (r.x0 + i * s) (r.x0 + i * s + (s - 1))).map (fun x =>
      ⟨r.id0 + i, c, nm, r.n0 + i, cid, x, y⟩))

/-- Expansion of one Tier-1 entry: one row per column of `[xs, xe]`. -/
def expandEntry (c : Int) (nm : String) (cid : Int) (en : V1Entry) : List RawRow :=
  (intRange en.xs en.xe).map (fun x => ⟨en.id, c, nm, en.n, cid, x, en.y⟩)

/-- Per-blob expansion with the source's shape sniffing: `seq` array
first, then `e` array, otherwise the `Unknown compact blob shape`
error. -/
def expandBlob (b : Blob) : Except String (List RawRow) :=
  match b.seq with
  | some runs => .ok (runs.flatMap (expandRun b.c b.n b.id b.y b.s))
  | none =>
    match b.e with
    | some es => .ok (es.flatMap (expandEntry b.c b.n b.id))
    | none => .error "Unknown compact blob shape"

/-- Expansion of a whole document before the canonical sort; the first
unknown blob aborts the whole call (and discards the rows already
accumulated), as the thrown error does. -/
def expandRaw : List Blob → Except String (List RawRow)
  | [] => .ok []
  | b :: rest =>
    match expandBlob b with
    | .error msg => .error msg
    | .ok l =>
      match expandRaw rest with
      | .error msg => .error msg
      | .ok ls => .ok (l ++ ls)

/-- The canonical sort applied by the decoder before returning. -/
def canonicalSort : List RawRow → List RawRow := sortRows

/-- The decoder `expandCompact`: expand every blob, then sort by
`(cityId, countryId, name, tileY, tileX, id, number)`. -/
def expandCompact (doc : List Blob) : Except String (List RawRow) :=
  (expandRaw doc).map canonicalSort

/-! ## Point query (`queryOneCompact`, source lines 265-318) -/

/-- Query of one Tier-2 run: skip when `x < x0`, compute
`q = floor((x - x0) / s)` (JS `Math.floor` of the float quotient, which
is integer floor division `Int.fdiv`), skip when `q` is outside
`[0, k)`, then check `x` against the reconstructed interval. -/
def queryRun (c : Int) (nm : String) (cid y s x : Int) (r : V2Run) : Option Hit :=
  if x < r.x0 then none
  else
    let q := (x - r.x0).fdiv s
    if q < 0 ∨ r.k ≤ q then none
    else
      let xs := r.x0 + q * s
      let xe := xs + (s - 1)
      if xs ≤ x ∧ x ≤ xe then some ⟨c, nm, cid, r.id0 + q, r.n0 + q, y, xs, xe, "V2"⟩
      else none

/-- Query of one Tier-1 entry: row must match, then the interval test. -/
def queryEntry (c : Int) (nm : String) (cid y x : Int) (en : V1Entry) : Option Hit :=
  if en.y ≠ y then none
  else if en.xs ≤ x ∧ x ≤ en.xe then
    some ⟨c, nm, cid, en.id, en.n, en.y, en.xs, en.xe, "V1"⟩
  else none

/-- Query of one document blob, with the same shape sniffing as the
decoder except that a blob of neither shape is passed over silently
(the source's `if / else if` has no final `else`). -/
def queryBlob (x y : Int) (b : Blob) : Option Hit :=
  match b.seq with
  | some runs => if y ≠ b.y then none else runs.findSome? (queryRun b.c b.n b.id b.y b.s x)
  | none =>
    match b.e with
    | some es => es.findSome? (queryEntry b.c b.n b.id y x)
    | none => none

/-- The point query `queryOneCompact`: blobs are tried in document order
and the first hit is returned. -/
def queryOneCompact (doc : List Blob) (x y : Int) : Option Hit :=
  doc.findSome? (queryBlob x y)

/-! ## Parsed-JSON model of the encode input path

The encode path (`readJSONL` then the grouping loop of `rowsToV1`)
performs no validation of required fields.  To settle the claim about
malformed records the grouping loop is re-embedded over rows as the JSON
parser actually delivers them: any field may be absent (`none`,
JavaScript `undefined`).  Reading `r.cityId` etc. of a parsed object
never throws — an absent field stringifies into the map key as
`"undefined"` — and the single operation of the loop that can throw is
the member access `r.coord.tileY` (and then `r.coord.tileX`) when
`coord` itself is absent. -/

structure JsonCoord where
  tileX? : Option Int
  tileY? : Option Int
deriving DecidableEq

structure JsonRow where
  id? : Option Int
  cityId? : Option Int
  name? : Option String
  number? : Option Int
  countryId? : Option Int
  coord? : Option JsonCoord
deriving DecidableEq

/-- Template-literal rendering of a possibly absent number. -/
def jstr : Option Int → String
  | some v => toString v
  | none => "undefined"

/-- Template-literal rendering of a possibly absent string. -/
def jstrS : Option String → String
  | some v => v
  | none => "undefined"

/-- The meta key string of the grouping loop; kept as the literal string
because an absent name renders as `"undefined"` and may collide with a
real name. -/
def metaKeyJ (r : JsonRow) : String :=
  jstr r.cityId? ++ "|" ++ jstrS r.name? ++ "|" ++ jstr r.countryId?

/-- The bucket key triple `(id, number, tileY)`; all three segments are
numeric or `"undefined"`, so the key string identifies exactly this
triple of options. -/
abbrev SubJ := Option Int × Option Int × Option Int

/-- A group under construction: the `c`, `n`, `id` captured from the row
that created the group, and the bucket map. -/
structure JGroup where
  c : Option Int
  n : Option String
  id : Option Int
  bucket : List (SubJ × List (Option Int))
deriving DecidableEq

def pushBucketJ (b : List (SubJ × List (Option Int))) (k : SubJ) (x : Option Int) :
    List (SubJ × List (Option Int)) :=
  match b with
  | [] => [(k, [x])]
  | (k0, xs) :: rest =>
    if k0 = k then (k0, xs ++ [x]) :: rest
    else (k0, xs) :: pushBucketJ rest k x

/-- Grouping of one parsed row whose `coord` is present. -/
def insertRowJ (gs : List (String × JGroup)) (r : JsonRow) (co : JsonCoord) :
    List (String × JGroup) :=
  match gs with
  | [] => [(metaKeyJ r, ⟨r.cityId?, r.name?, r.countryId?,
      [((r.id?, r.number?, co.tileY?), [co.tileX?])]⟩)]
  | (m, g) :: rest =>
    if m = metaKeyJ r then
      (m, ⟨g.c, g.n, g.id, pushBucketJ g.bucket (r.id?, r.number?, co.tileY?) co.tileX?⟩) :: rest
    else (m, g) :: insertRowJ rest r co

/-- The grouping loop of `rowsToV1` over parsed rows: the only throwing
operation is the `r.coord.tileY` access of a row without `coord` (a
`TypeError`, which aborts the call and discards the partially built
map). -/
def groupRowsChecked (gs : List (String × JGroup)) :
    List JsonRow → Except String (List (String × JGroup))
  | [] => .ok gs
  | r :: rest =>
    match r.coord? with
    | none => .error "TypeError: cannot read tileY of undefined"
    | some co => groupRowsChecked (insertRowJ gs r co) rest

/-- A parsed row having every field the spec requires. -/
def wellFormedJ (r : JsonRow) : Bool :=
  r.id?.isSome && r.cityId?.isSome && r.name?.isSome && r.number?.isSome &&
    r.countryId?.isSome &&
    (match r.coord? with
     | some co => co.tileX?.isSome && co.tileY?.isSome
     | none => false)

/-! ## Properties of the comparators -/

theorem nameKey_injective {a b : String} (h : nameKey a = nameKey b) : a = b := by
  cases a with
  | mk d1 =>
    cases b with
    | mk d2 => exact congrArg String.mk h

instance : IsTrans RawRow rowLE := ⟨fun _ _ _ h1 h2 => le_trans h1 h2⟩

instance : IsTotal RawRow rowLE := ⟨fun a b => le_total (rowKey a) (rowKey b)⟩

theorem rowKey_injective {a b : RawRow} (h : rowKey a = rowKey b) : a = b := by
  cases a
  cases b
  simp only [rowKey, toLex_inj, Prod.mk.injEq] at h
  obtain ⟨h1, h2, h3, h4, h5, h6, h7⟩ := h
  cases nameKey_injective h3
  simp_all

instance : IsAntisymm RawRow rowLE :=
  ⟨fun _ _ h1 h2 => rowKey_injective (le_antisymm h1 h2)⟩

instance : IsTrans V1Entry entryLE := ⟨fun _ _ _ h1 h2 => le_trans h1 h2⟩

instance : IsTotal V1Entry entryLE := ⟨fun a b => le_total (entryKey a) (entryKey b)⟩

theorem entryKey_injective {a b : V1Entry} (h : entryKey a = entryKey b) : a = b := by
  cases a
  cases b
  simp only [entryKey, toLex_inj, Prod.mk.injEq] at h
  simp_all

instance : IsAntisymm V1Entry entryLE :=
  ⟨fun _ _ h1 h2 => entryKey_injective (le_antisymm h1 h2)⟩

instance : IsTrans V1Blob blobLE := ⟨fun _ _ _ h1 h2 => le_trans h1 h2⟩

instance : IsTotal V1Blob blobLE := ⟨fun a b => le_total (blobKey a) (blobKey b)⟩

instance : IsTrans Int intLE := ⟨fun _ _ _ h1 h2 => le_trans h1 h2⟩

instance : IsTotal Int intLE := ⟨fun a b => le_total a b⟩

instance : IsAntisymm Int intLE := ⟨fun _ _ h1 h2 => le_antisymm h1 h2⟩

instance : IsTrans V1Entry xsLE := ⟨fun _ _ _ h1 h2 => le_trans h1 h2⟩

instance : IsTotal V1Entry xsLE := ⟨fun a b => le_total a.xs b.xs⟩

theorem sortRows_perm (l : List RawRow) : (sortRows l).Perm l :=
  List.perm_insertionSort rowLE l

theorem sortRows_sorted (l : List RawRow) : List.Sorted rowLE (sortRows l) :=
  List.sorted_insertionSort rowLE l

theorem sortRows_eq_of_perm {l1 l2 : List RawRow} (h : l1.Perm l2) :
    sortRows l1 = sortRows l2 :=
  List.eq_of_perm_of_sorted
    (((sortRows_perm l1).trans h).trans (sortRows_perm l2).symm)
    (sortRows_sorted l1) (sortRows_sorted l2)

theorem sortEntries_perm (l : List V1Entry) : (sortEntries l).Perm l :=
  List.perm_insertionSort entryLE l

theorem sortEntries_eq_of_perm {l1 l2 : List V1Entry} (h : l1.Perm l2) :
    sortEntries l1 = sortEntries l2 :=
  List.eq_of_perm_of_sorted
    (((sortEntries_perm l1).trans h).trans (sortEntries_perm l2).symm)
    (List.sorted_insertionSort entryLE l1) (List.sorted_insertionSort entryLE l2)

theorem sortInts_perm (l : List Int) : (sortInts l).Perm l :=
  List.perm_insertionSort intLE l

theorem sortInts_eq_of_perm {l1 l2 : List Int} (h : l1.Perm l2) :
    sortInts l1 = sortInts l2 :=
  List.eq_of_perm_of_sorted
    (((sortInts_perm l1).trans h).trans (sortInts_perm l2).symm)
    (List.sorted_insertionSort intLE l1) (List.sorted_insertionSort intLE l2)

theorem sortBlobs_perm (l : List V1Blob) : (sortBlobs l).Perm l :=
  List.perm_insertionSort blobLE l

theorem sortByXs_perm (l : List V1Entry) : (sortByXs l).Perm l :=
  List.perm_insertionSort xsLE l

/-- Two blob lists with no repeated sort key that sort to the same
multiset sort to the same list: the blob comparator only consults
`(c, id, n)`, but on key-distinct lists this pins the order down. -/
theorem sortBlobs_eq_of_perm {l1 l2 : List V1Blob} (h : l1.Perm l2)
    (hnd : (l1.map blobKey).Nodup) : sortBlobs l1 = sortBlobs l2 := by
  have hnd2 : (l2.map blobKey).Nodup := ((h.map blobKey).nodup_iff).mp hnd
  have hlt : ∀ {l : List V1Blob}, (l.map blobKey).Nodup →
      List.Pairwise (fun a b : V1Blob => blobKey a < blobKey b) (sortBlobs l) := by
    intro l hl
    have hs : List.Sorted blobLE (sortBlobs l) := List.sorted_insertionSort blobLE l
    have hne : List.Pairwise (fun a b : V1Blob => blobKey a ≠ blobKey b) (sortBlobs l) := by
      have : ((sortBlobs l).map blobKey).Nodup :=
        (((sortBlobs_perm l).map blobKey).nodup_iff).mpr hl
      exact List.pairwise_map.mp this
    exact (hs.and hne).imp (fun hab => lt_of_le_of_ne hab.1 hab.2)
  haveI : IsAntisymm V1Blob (fun a b : V1Blob => blobKey a < blobKey b) :=
    ⟨fun a b h1 h2 => absurd (lt_trans h1 h2) (lt_irrefl _)⟩
  exact List.eq_of_perm_of_sorted
    (((sortBlobs_perm l1).trans h).trans (sortBlobs_perm l2).symm)
    (hlt hnd) (hlt hnd2)

/-! ## Integer ranges -/

theorem mem_intRange {x lo hi : Int} : x ∈ intRange lo hi ↔ lo ≤ x ∧ x ≤ hi := by
  simp only [intRange, List.mem_map, List.mem_range]
  constructor
  · rintro ⟨i, hilt, rfl⟩
    omega
  · rintro ⟨h1, h2⟩
    exact ⟨(x - lo).toNat, by omega, by omega⟩

theorem intRange_snoc {lo hi : Int} (h : lo ≤ hi + 1) :
    intRange lo (hi + 1) = intRange lo hi ++ [hi + 1] := by
  have hn : (hi + 1 + 1 - lo).toNat = (hi + 1 - lo).toNat + 1 := by omega
  have hv : lo + ((hi + 1 - lo).toNat : Int) = hi + 1 := by omega
  simp only [intRange, hn, List.range_succ, List.map_append, List.map_cons, List.map_nil, hv]

theorem intRange_single (a : Int) : intRange a a = [a] := by
  have : (a + 1 - a).toNat = 1 := by omega
  simp [intRange, this, List.range_succ]

theorem intRange_self_empty {lo hi : Int} (h : hi < lo) : intRange lo hi = [] := by
  have : (hi + 1 - lo).toNat = 0 := by omega
  simp [intRange, this]

/-! ## The interval builder expands back to its input

The run-merging loop preserves the multiset of columns: each consumed
value either extends the open interval by exactly one column or closes
it and opens a fresh single-column interval, so the emitted intervals
cover every occurrence of every pushed column (duplicates included). -/

/-- Expansion of a Tier-1 blob in its typed form (the Tier-1 branch of
`expandCompact`). -/
def expandV1 (b : V1Blob) : List RawRow := b.e.flatMap (expandEntry b.c b.n b.id)

/-- The raw row rebuilt from a group key, a bucket key and one column. -/
def rowOf (m : Int × String × Int) (k : Int × Int × Int) (x : Int) : RawRow :=
  ⟨k.1, m.1, m.2.1, k.2.1, m.2.2, x, k.2.2⟩

theorem rowOf_self (r : RawRow) : rowOf (metaOf r) (subOf r) r.tileX = r := rfl

theorem expandEntry_eq (c : Int) (nm : String) (cid : Int) (en : V1Entry) :
    expandEntry c nm cid en
      = (intRange en.xs en.xe).map (rowOf (c, nm, cid) (en.id, en.n, en.y)) := rfl

theorem mergeRunsAux_expand (c : Int) (nm : String) (cid rid nn yy : Int)
    (rest : List Int) : ∀ start prev : Int, start ≤ prev →
    (mergeRunsAux rid nn yy start prev rest).flatMap (expandEntry c nm cid)
      = (intRange start prev ++ rest).map (rowOf (c, nm, cid) (rid, nn, yy)) := by
  induction rest with
  | nil =>
    intro start prev _
    simp [mergeRunsAux, expandEntry_eq]
  | cons cur rest ih =>
    intro start prev h
    simp only [mergeRunsAux]
    by_cases hc : cur = prev + 1
    · rw [if_pos hc, ih start cur (by omega)]
      subst hc
      rw [intRange_snoc (by omega)]
      simp
    · rw [if_neg hc]
      simp only [List.flatMap_cons]
      rw [ih cur cur le_rfl]
      simp [expandEntry_eq, intRange_single]

theorem entriesOfBucket_expand (c : Int) (nm : String) (cid : Int)
    (k : Int × Int × Int) (xsArr : List Int) :
    ((entriesOfBucket k xsArr).flatMap (expandEntry c nm cid)).Perm
      (xsArr.map (rowOf (c, nm, cid) k)) := by
  unfold entriesOfBucket
  cases hs : sortInts xsArr with
  | nil =>
    have hp := sortInts_perm xsArr
    rw [hs] at hp
    rw [(hp.symm.eq_nil : xsArr = [])]
    simp
  | cons x rest =>
    rw [mergeRunsAux_expand c nm cid k.1 k.2.1 k.2.2 rest x x le_rfl]
    rw [intRange_single]
    have hp := sortInts_perm xsArr
    rw [hs] at hp
    exact hp.map (rowOf (c, nm, cid) k)

/-- Rows represented by one group's bucket map. -/
def bucketRows (m : Int × String × Int) (b : Bucket) : List RawRow :=
  b.flatMap (fun p => p.2.map (rowOf m p.1))

theorem bucketRows_pushBucket (m : Int × String × Int) (b : Bucket)
    (k : Int × Int × Int) (x : Int) :
    (bucketRows m (pushBucket b k x)).Perm (rowOf m k x :: bucketRows m b) := by
  induction b with
  | nil => simp [pushBucket, bucketRows]
  | cons p rest ih =>
    obtain ⟨k0, xs⟩ := p
    simp only [pushBucket]
    by_cases hk : k0 = k
    · subst hk
      rw [if_pos rfl]
      simp only [bucketRows, List.flatMap_cons, List.map_append, List.map_cons, List.map_nil]
      rw [List.append_assoc]
      exact List.perm_middle
    · rw [if_neg hk]
      simp only [bucketRows, List.flatMap_cons] at ih ⊢
      exact (List.Perm.append_left _ ih).trans List.perm_middle

/-- Rows represented by the whole grouping accumulator. -/
def flattenGroups (gs : Groups) : List RawRow :=
  gs.flatMap (fun p => bucketRows p.1 p.2)

theorem flattenGroups_insertRow (gs : Groups) (r : RawRow) :
    (flattenGroups (insertRow gs r)).Perm (r :: flattenGroups gs) := by
  induction gs with
  | nil => simp [insertRow, flattenGroups, bucketRows, rowOf_self]
  | cons p rest ih =>
    obtain ⟨m, b⟩ := p
    simp only [insertRow]
    by_cases hm : m = metaOf r
    · subst hm
      rw [if_pos rfl]
      simp only [flattenGroups, List.flatMap_cons]
      have h1 := (bucketRows_pushBucket (metaOf r) b (subOf r) r.tileX).append_right
        (flattenGroups rest)
      rw [rowOf_self] at h1
      exact h1.trans (by simp [flattenGroups])
    · rw [if_neg hm]
      simp only [flattenGroups, List.flatMap_cons] at ih ⊢
      exact (List.Perm.append_left _ ih).trans List.perm_middle

theorem flattenGroups_foldl (rows : List RawRow) : ∀ gs : Groups,
    (flattenGroups (rows.foldl insertRow gs)).Perm (flattenGroups gs ++ rows) := by
  induction rows with
  | nil => intro gs; simp
  | cons r rest ih =>
    intro gs
    have h1 : (flattenGroups ((r :: rest).foldl insertRow gs)).Perm
        (flattenGroups (insertRow gs r) ++ rest) := by
      simpa using ih (insertRow gs r)
    have h2 := (flattenGroups_insertRow gs r).append_right rest
    exact (h1.trans h2).trans List.perm_middle.symm

theorem flattenGroups_groupRows (rows : List RawRow) :
    (flattenGroups (groupRows rows)).Perm rows := by
  simpa [flattenGroups] using flattenGroups_foldl rows []

theorem expandV1_blobOfGroup (m : Int × String × Int) (b : Bucket) :
    (expandV1 (blobOfGroup m b)).Perm (bucketRows m b) := by
  unfold expandV1 blobOfGroup bucketRows
  refine ((sortEntries_perm _).flatMap_right _).trans ?_
  rw [List.flatMap_assoc]
  exact List.Perm.flatMap_left _ (fun p _ => entriesOfBucket_expand m.1 m.2.1 m.2.2 p.1 p.2)

/-- The interval builder's blobs expand back to the input rows, as a
multiset — occurrences included, no deduplication happens anywhere. -/
theorem rowsToV1_expand (rows : List RawRow) :
    ((rowsToV1 rows).flatMap expandV1).Perm rows := by
  unfold rowsToV1
  refine ((sortBlobs_perm _).flatMap_right _).trans ?_
  rw [List.flatMap_map]
  refine (List.Perm.flatMap_left _ (fun p _ => expandV1_blobOfGroup p.1 p.2)).trans ?_
  exact flattenGroups_groupRows rows

/-! ## The progression compactor preserves expansion

A run built from a maximal chain of entries expands to exactly the rows
of those entries: the chain conditions say each absorbed entry starts
`s` columns later and carries `id` and `n` one higher, which is
precisely how the decoder reconstructs the `i`-th member of a run. -/

/-- The run the flush emits for a chain opened by `e` that absorbed `k`
entries. -/
def mkRun (e : V1Entry) (k : Int) : V2Run := ⟨e.xs, k, e.id, e.n⟩

theorem expandRun_one (c : Int) (nm : String) (cid y s : Int) (e : V1Entry)
    (hy : e.y = y) (hw : e.xe - e.xs + 1 = s) :
    expandRun c nm cid y s (mkRun e 1) = expandEntry c nm cid e := by
  subst hy
  unfold expandRun mkRun expandEntry
  have h0 : (1 : Int) - 1 = 0 := by omega
  have hx : e.xs + 0 * s + (s - 1) = e.xe := by omega
  have hx2 : e.xs + (s - 1) = e.xe := by omega
  simp [h0, intRange_single, hx, hx2]

theorem expandRun_snoc (c : Int) (nm : String) (cid y s : Int) (e : V1Entry)
    (k : Int) (hk : 1 ≤ k) :
    expandRun c nm cid y s (mkRun e (k + 1))
      = expandRun c nm cid y s (mkRun e k)
        ++ (intRange (e.xs + k * s) (e.xs + k * s + (s - 1))).map
            (fun x => ⟨e.id + k, c, nm, e.n + k, cid, x, y⟩) := by
  unfold expandRun mkRun
  have h1 : (k + 1 : Int) - 1 = (k - 1) + 1 := by omega
  have h2 : (k - 1 : Int) + 1 = k := by omega
  rw [h1, intRange_snoc (by omega), List.flatMap_append, h2]
  simp

theorem buildRunsAux_expand (c : Int) (nm : String) (cid y s : Int)
    (rest : List V1Entry) : ∀ (curStart prev : V1Entry) (k : Int),
    1 ≤ k →
    prev.xs = curStart.xs + (k - 1) * s →
    prev.id = curStart.id + (k - 1) →
    prev.n = curStart.n + (k - 1) →
    (∀ e ∈ rest, e.y = y ∧ e.xe - e.xs + 1 = s) →
    (buildRunsAux s curStart k prev rest).flatMap (expandRun c nm cid y s)
      = expandRun c nm cid y s (mkRun curStart k)
        ++ rest.flatMap (expandEntry c nm cid) := by
  induction rest with
  | nil =>
    intro curStart prev k _ _ _ _ _
    simp [buildRunsAux, mkRun]
  | cons cur rest ih =>
    intro curStart prev k hk hxs hid hn hmem
    simp only [buildRunsAux]
    by_cases hc : chainOK s prev cur
    · rw [if_pos hc]
      obtain ⟨hc1, hc2, hc3⟩ := hc
      have hcx : cur.xs = curStart.xs + ((k + 1) - 1) * s := by
        rw [hc1, hxs]; ring
      have hcid : cur.id = curStart.id + ((k + 1) - 1) := by rw [hc2, hid]; ring
      have hcn : cur.n = curStart.n + ((k + 1) - 1) := by rw [hc3, hn]; ring
      rw [ih curStart cur (k + 1) (by omega) hcx hcid hcn
        (fun e he => hmem e (List.mem_cons_of_mem cur he))]
      have hcur := hmem cur (List.mem_cons_self cur rest)
      have hstep : expandRun c nm cid y s (mkRun curStart (k + 1))
          = expandRun c nm cid y s (mkRun curStart k) ++ expandEntry c nm cid cur := by
        rw [expandRun_snoc c nm cid y s curStart k hk, expandEntry_eq]
        have exs : cur.xs = curStart.xs + k * s := by rw [hcx]; ring_nf
        have exe : cur.xe = curStart.xs + k * s + (s - 1) := by
          have := hcur.2; omega
        have eid : cur.id = curStart.id + k := by rw [hcid]; ring_nf
        have en : cur.n = curStart.n + k := by rw [hcn]; ring_nf
        rw [exs, exe, eid, en, hcur.1]
        rfl
      rw [hstep, List.flatMap_cons, List.append_assoc]
    · rw [if_neg hc]
      simp only [List.flatMap_cons]
      have hcur := hmem cur (List.mem_cons_self cur rest)
      rw [ih cur cur 1 le_rfl (by ring_nf) (by ring_nf) (by ring_nf)
        (fun e he => hmem e (List.mem_cons_of_mem cur he))]
      rw [expandRun_one c nm cid y s cur hcur.1 hcur.2]
      have : (⟨curStart.xs, k, curStart.id, curStart.n⟩ : V2Run) = mkRun curStart k := rfl
      rw [this]

theorem buildRuns_expand (c : Int) (nm : String) (cid y s : Int)
    (es : List V1Entry) (h : ∀ e ∈ es, e.y = y ∧ e.xe - e.xs + 1 = s) :
    (buildRuns s es).flatMap (expandRun c nm cid y s)
      = es.flatMap (expandEntry c nm cid) := by
  cases es with
  | nil => simp [buildRuns]
  | cons e0 rest =>
    unfold buildRuns
    rw [buildRunsAux_expand c nm cid y s rest e0 e0 1 le_rfl (by ring_nf) (by ring_nf)
      (by ring_nf) (fun e he => h e (List.mem_cons_of_mem e0 he))]
    have h0 := h e0 (List.mem_cons_self e0 rest)
    rw [expandRun_one c nm cid y s e0 h0.1 h0.2, List.flatMap_cons]

/-- A successful Tier-2 conversion expands to the same multiset of rows
as the Tier-1 blob it came from. -/
theorem v1ToV2_expand {v1 : V1Blob} {s : Int} {b2 : Blob}
    (h : v1ToV2IfPossible v1 s = some b2) :
    ∃ l, expandBlob b2 = .ok l ∧ l.Perm (expandV1 v1) := by
  unfold v1ToV2IfPossible at h
  cases hv : v1.e with
  | nil =>
    rw [hv] at h
    simp only [Option.some.injEq] at h
    subst h
    exact ⟨[], rfl, by simp [expandV1, hv]⟩
  | cons e0 rest =>
    rw [hv] at h
    simp only at h
    split_ifs at h with h1 h2
    simp only [Option.some.injEq] at h
    subst h
    simp only [List.all_eq_true, Bool.and_eq_true, decide_eq_true_eq] at h1
    refine ⟨_, rfl, ?_⟩
    have hmem : ∀ e ∈ sortByXs (e0 :: rest), e.y = e0.y ∧ e.xe - e.xs + 1 = s := by
      intro e he
      exact h1 e ((sortByXs_perm (e0 :: rest)).mem_iff.mp he)
    rw [buildRuns_expand v1.c v1.n v1.id e0.y s (sortByXs (e0 :: rest)) hmem]
    refine ((sortByXs_perm (e0 :: rest)).flatMap_right _).trans ?_
    rw [expandV1, hv]

/-- Expansion of the encoder's output document: always succeeds, and
yields the same multiset of rows as expanding the Tier-1 blobs. -/
theorem expandRaw_encode (bs : List V1Blob) (s : Int) :
    ∃ l, expandRaw (bs.map (fun b => (v1ToV2IfPossible b s).getD b.toBlob)) = .ok l ∧
      l.Perm (bs.flatMap expandV1) := by
  induction bs with
  | nil => exact ⟨[], rfl, List.Perm.refl _⟩
  | cons b rest ih =>
    obtain ⟨l, hl, hp⟩ := ih
    cases hv : v1ToV2IfPossible b s with
    | none =>
      refine ⟨expandV1 b ++ l, ?_, ?_⟩
      · simp only [List.map_cons, expandRaw, hv, Option.getD_none]
        rw [hl]
        rfl
      · rw [List.flatMap_cons]
        exact hp.append_left (expandV1 b)
    | some b2 =>
      obtain ⟨lb, hb, hbp⟩ := v1ToV2_expand hv
      refine ⟨lb ++ l, ?_, ?_⟩
      · simp only [List.map_cons, expandRaw, hv, Option.getD_some]
        rw [hb, hl]
      · rw [List.flatMap_cons]
        exact hbp.append hp

/-- Round-trip helper: decoding the encoder's output yields exactly the
canonically sorted input. -/
theorem expandCompact_compactFromRows (rows : List RawRow) (s : Int) :
    expandCompact (compactFromRows rows s) = .ok (canonicalSort rows) := by
  obtain ⟨l, hl, hp⟩ := expandRaw_encode (rowsToV1 rows) s
  have hp2 : l.Perm rows := hp.trans (rowsToV1_expand rows)
  unfold expandCompact compactFromRows
  rw [hl]
  unfold canonicalSort
  rw [show (Except.ok l : Except String (List RawRow)).map sortRows
      = .ok (sortRows l) from rfl]
  rw [sortRows_eq_of_perm hp2]

/-! ## Query against expansion

Per-run soundness and completeness of the Tier-2 query arithmetic, then
per-blob and per-document agreement between `queryOneCompact` and the
rows the decoder would produce. -/

theorem mem_expandRun {c : Int} {nm : String} {cid y s : Int} {run : V2Run}
    {r : RawRow} :
    r ∈ expandRun c nm cid y s run ↔
      ∃ i : Int, 0 ≤ i ∧ i ≤ run.k - 1 ∧
        run.x0 + i * s ≤ r.tileX ∧ r.tileX ≤ run.x0 + i * s + (s - 1) ∧
        r = ⟨run.id0 + i, c, nm, run.n0 + i, cid, r.tileX, y⟩ := by
  unfold expandRun
  simp only [List.mem_flatMap, List.mem_map, mem_intRange]
  constructor
  · rintro ⟨i, ⟨hi0, hik⟩, x, ⟨hx1, hx2⟩, rfl⟩
    exact ⟨i, hi0, hik, hx1, hx2, rfl⟩
  · rintro ⟨i, hi0, hik, hx1, hx2, hr⟩
    exact ⟨i, ⟨hi0, hik⟩, r.tileX, ⟨hx1, hx2⟩, hr.symm⟩

theorem mem_expandEntry {c : Int} {nm : String} {cid : Int} {en : V1Entry}
    {r : RawRow} :
    r ∈ expandEntry c nm cid en ↔
      en.xs ≤ r.tileX ∧ r.tileX ≤ en.xe ∧
        r = ⟨en.id, c, nm, en.n, cid, r.tileX, en.y⟩ := by
  unfold expandEntry
  simp only [List.mem_map, mem_intRange]
  constructor
  · rintro ⟨x, ⟨hx1, hx2⟩, rfl⟩
    exact ⟨hx1, hx2, rfl⟩
  · rintro ⟨hx1, hx2, hr⟩
    exact ⟨r.tileX, ⟨hx1, hx2⟩, hr.symm⟩

/-- The floor-division index the query computes recovers the member
index of any covering run member. -/
theorem fdiv_member_index {x0 s x i : Int} (_hi0 : 0 ≤ i)
    (hx1 : x0 + i * s ≤ x) (hx2 : x ≤ x0 + i * s + (s - 1)) :
    (x - x0).fdiv s = i := by
  have hs1 : 1 ≤ s := by nlinarith
  have hd : x - x0 = (x - x0 - s * i) + s * i := by ring
  have hr0 : 0 ≤ x - x0 - s * i := by nlinarith
  have hrs : x - x0 - s * i < s := by nlinarith
  rw [Int.fdiv_eq_ediv _ (by omega), hd,
    Int.add_mul_ediv_left _ i (by omega : s ≠ 0),
    Int.ediv_eq_zero_of_lt hr0 hrs, zero_add]

theorem queryRun_sound {c : Int} {nm : String} {cid y s x : Int} {run : V2Run}
    {h : Hit} (hq : queryRun c nm cid y s x run = some h) :
    ∃ i : Int, 0 ≤ i ∧ i ≤ run.k - 1 ∧
      run.x0 + i * s ≤ x ∧ x ≤ run.x0 + i * s + (s - 1) ∧
      h.id = run.id0 + i ∧ h.number = run.n0 + i := by
  simp only [queryRun] at hq
  split_ifs at hq with h1 h2 h3
  simp only [Option.some.injEq] at hq
  push_neg at h2
  refine ⟨(x - run.x0).fdiv s, h2.1, by omega, ?_, ?_, ?_, ?_⟩
  · exact h3.1
  · exact h3.2
  · rw [← hq]
  · rw [← hq]

theorem queryRun_complete {c : Int} {nm : String} {cid y s x : Int} {run : V2Run}
    {i : Int} (hi0 : 0 ≤ i) (hik : i ≤ run.k - 1)
    (hx1 : run.x0 + i * s ≤ x) (hx2 : x ≤ run.x0 + i * s + (s - 1)) :
    (queryRun c nm cid y s x run).isSome := by
  have hs1 : 1 ≤ s := by nlinarith
  have hq := fdiv_member_index hi0 hx1 hx2
  have hx0 : ¬ x < run.x0 := by nlinarith
  simp only [queryRun, hq]
  rw [if_neg hx0, if_neg (by push_neg; omega : ¬ (i < 0 ∨ run.k ≤ i)),
    if_pos ⟨hx1, hx2⟩]
  rfl

theorem queryEntry_sound {c : Int} {nm : String} {cid y x : Int} {en : V1Entry}
    {h : Hit} (hq : queryEntry c nm cid y x en = some h) :
    en.y = y ∧ en.xs ≤ x ∧ x ≤ en.xe ∧ h.id = en.id ∧ h.number = en.n := by
  simp only [queryEntry] at hq
  split_ifs at hq with h1 h2
  simp only [Option.some.injEq] at hq
  push_neg at h1
  exact ⟨h1, h2.1, h2.2, by rw [← hq], by rw [← hq]⟩

theorem queryEntry_complete {c : Int} {nm : String} {cid y x : Int} {en : V1Entry}
    (hy : en.y = y) (hx1 : en.xs ≤ x) (hx2 : x ≤ en.xe) :
    (queryEntry c nm cid y x en).isSome := by
  simp only [queryEntry]
  rw [if_neg (by simp [hy]), if_pos ⟨hx1, hx2⟩]
  rfl

theorem queryBlob_sound {x y : Int} {b : Blob} {h : Hit} {l : List RawRow}
    (hq : queryBlob x y b = some h) (he : expandBlob b = .ok l) :
    ∃ r ∈ l, r.tileX = x ∧ r.tileY = y ∧ r.id = h.id ∧ r.number = h.number := by
  unfold expandBlob at he
  cases hseq : b.seq with
  | some runs =>
    simp only [queryBlob, hseq] at hq
    rw [hseq] at he
    split_ifs at hq with hy
    push_neg at hy
    obtain ⟨run, hrun, hqr⟩ := List.exists_of_findSome?_eq_some hq
    obtain ⟨i, hi0, hik, hx1, hx2, hid, hnum⟩ := queryRun_sound hqr
    simp only [Except.ok.injEq] at he
    refine ⟨⟨run.id0 + i, b.c, b.n, run.n0 + i, b.id, x, b.y⟩, ?_, rfl, hy.symm, hid.symm, hnum.symm⟩
    rw [← he]
    rw [List.mem_flatMap]
    exact ⟨run, hrun, mem_expandRun.mpr ⟨i, hi0, hik, hx1, hx2, rfl⟩⟩
  | none =>
    rw [hseq] at he
    cases hee : b.e with
    | some es =>
      simp only [queryBlob, hseq, hee] at hq
      rw [hee] at he
      obtain ⟨en, hen, hqe⟩ := List.exists_of_findSome?_eq_some hq
      obtain ⟨hy, hx1, hx2, hid, hnum⟩ := queryEntry_sound hqe
      simp only [Except.ok.injEq] at he
      refine ⟨⟨en.id, b.c, b.n, en.n, b.id, x, en.y⟩, ?_, rfl, hy, hid.symm, hnum.symm⟩
      rw [← he, List.mem_flatMap]
      exact ⟨en, hen, mem_expandEntry.mpr ⟨hx1, hx2, rfl⟩⟩
    | none =>
      simp only [queryBlob, hseq, hee] at hq
      exact absurd hq (by simp)

theorem queryBlob_complete {x y : Int} {b : Blob} {l : List RawRow} {r : RawRow}
    (he : expandBlob b = .ok l) (hr : r ∈ l) (hx : r.tileX = x) (hy : r.tileY = y) :
    (queryBlob x y b).isSome := by
  unfold expandBlob at he
  cases hseq : b.seq with
  | some runs =>
    rw [hseq] at he
    simp only [queryBlob, hseq]
    simp only [Except.ok.injEq] at he
    rw [← he] at hr
    rw [List.mem_flatMap] at hr
    obtain ⟨run, hrun, hmem⟩ := hr
    obtain ⟨i, hi0, hik, hx1, hx2, hform⟩ := mem_expandRun.mp hmem
    have hby : r.tileY = b.y := by rw [hform]
    rw [if_neg (by rw [← hy, hby]; exact fun hne => hne rfl)]
    rw [hx] at hx1 hx2
    by_contra hn
    rw [Option.not_isSome_iff_eq_none, List.findSome?_eq_none_iff] at hn
    have := hn run hrun
    have hsome : (queryRun b.c b.n b.id b.y b.s x run).isSome :=
      queryRun_complete hi0 hik hx1 hx2
    rw [this] at hsome
    exact absurd hsome (by simp)
  | none =>
    rw [hseq] at he
    cases hee : b.e with
    | some es =>
      rw [hee] at he
      simp only [queryBlob, hseq, hee]
      simp only [Except.ok.injEq] at he
      rw [← he, List.mem_flatMap] at hr
      obtain ⟨en, hen, hmem⟩ := hr
      obtain ⟨hx1, hx2, hform⟩ := mem_expandEntry.mp hmem
      have hey : en.y = y := by rw [← hy, hform]
      rw [hx] at hx1 hx2
      by_contra hn
      rw [Option.not_isSome_iff_eq_none, List.findSome?_eq_none_iff] at hn
      have := hn en hen
      have hsome : (queryEntry b.c b.n b.id y x en).isSome :=
        queryEntry_complete hey hx1 hx2
      rw [this] at hsome
      exact absurd hsome (by simp)
    | none =>
      rw [hee] at he
      exact absurd he (by simp)

theorem queryOneCompact_cons_some {b : Blob} {doc : List Blob} {x y : Int} {h0 : Hit}
    (hqb : queryBlob x y b = some h0) :
    queryOneCompact (b :: doc) x y = some h0 := by
  simp [queryOneCompact, List.findSome?_cons, hqb]

theorem queryOneCompact_cons_none {b : Blob} {doc : List Blob} {x y : Int}
    (hqb : queryBlob x y b = none) :
    queryOneCompact (b :: doc) x y = queryOneCompact doc x y := by
  simp [queryOneCompact, List.findSome?_cons, hqb]

/-- Agreement of query and raw expansion over a whole document. -/
theorem queryOneCompact_agree (doc : List Blob) : ∀ (l : List RawRow) (x y : Int),
    expandRaw doc = .ok l →
    (∀ h, queryOneCompact doc x y = some h →
        ∃ r ∈ l, r.tileX = x ∧ r.tileY = y ∧ r.id = h.id ∧ r.number = h.number) ∧
    ((∃ r ∈ l, r.tileX = x ∧ r.tileY = y) → (queryOneCompact doc x y).isSome) := by
  induction doc with
  | nil =>
    intro l x y he
    simp only [expandRaw, Except.ok.injEq] at he
    subst he
    constructor
    · intro h hq
      exact absurd hq (by simp [queryOneCompact])
    · rintro ⟨r, hr, -⟩
      exact absurd hr (List.not_mem_nil r)
  | cons b rest ih =>
    intro l x y he
    simp only [expandRaw] at he
    cases hb : expandBlob b with
    | error msg => rw [hb] at he; simp at he
    | ok lb =>
      rw [hb] at he
      cases hrest : expandRaw rest with
      | error msg => rw [hrest] at he; simp at he
      | ok lrest =>
        rw [hrest] at he
        simp only [Except.ok.injEq] at he
        obtain ⟨hsnd, hcmpl⟩ := ih lrest x y hrest
        constructor
        · intro h hq
          cases hqb : queryBlob x y b with
          | some h0 =>
            rw [queryOneCompact_cons_some hqb] at hq
            simp only [Option.some.injEq] at hq
            subst hq
            obtain ⟨r, hrl, hprops⟩ := queryBlob_sound hqb hb
            exact ⟨r, by rw [← he]; exact List.mem_append_left lrest hrl, hprops⟩
          | none =>
            rw [queryOneCompact_cons_none hqb] at hq
            obtain ⟨r, hrl, hprops⟩ := hsnd h hq
            exact ⟨r, by rw [← he]; exact List.mem_append_right lb hrl, hprops⟩
        · rintro ⟨r, hrl, hrx, hry⟩
          rw [← he, List.mem_append] at hrl
          cases hqb : queryBlob x y b with
          | some h0 => rw [queryOneCompact_cons_some hqb]; rfl
          | none =>
            rw [queryOneCompact_cons_none hqb]
            rcases hrl with hrl | hrl
            · have := queryBlob_complete hb hrl hrx hry
              rw [hqb] at this
              exact absurd this (by simp)
            · exact hcmpl ⟨r, hrl, hrx, hry⟩

/-! ## Order-independence of the encoder

The grouping maps iterate in insertion order, but every list the encoder
emits is sorted by a key that is unique within its container, so the
output depends only on (a) which keys occur, (b) the multiset of columns
per key — both invariant under permutation of the input rows. -/

/-- Association-list lookup, the `Map.get` of the model. -/
def lookupA {κ β : Type} [DecidableEq κ] : List (κ × β) → κ → Option β
  | [], _ => none
  | (k0, v) :: rest, k => if k0 = k then some v else lookupA rest k

theorem lookupA_eq_none {κ β : Type} [DecidableEq κ] {l : List (κ × β)} {k : κ} :
    lookupA l k = none ↔ k ∉ l.map Prod.fst := by
  induction l with
  | nil => simp [lookupA]
  | cons p rest ih =>
    obtain ⟨k0, v0⟩ := p
    by_cases hk : k0 = k
    · subst hk
      simp [lookupA]
    · simp [lookupA, hk, ih, Ne.symm hk]

theorem mem_of_lookupA {κ β : Type} [DecidableEq κ] {l : List (κ × β)} {k : κ} {v : β}
    (h : lookupA l k = some v) : (k, v) ∈ l := by
  induction l with
  | nil => simp [lookupA] at h
  | cons p rest ih =>
    obtain ⟨k0, v0⟩ := p
    simp only [lookupA] at h
    split_ifs at h with hk
    · subst hk
      obtain rfl := Option.some.inj h
      exact List.mem_cons_self _ _
    · exact List.mem_cons_of_mem _ (ih h)

theorem lookupA_mem {κ β : Type} [DecidableEq κ] {l : List (κ × β)} {k : κ} {v : β}
    (hnd : (l.map Prod.fst).Nodup) : (k, v) ∈ l ↔ lookupA l k = some v := by
  constructor
  · intro hmem
    induction l with
    | nil => simp at hmem
    | cons p rest ih =>
      obtain ⟨k0, v0⟩ := p
      simp only [List.map_cons, List.nodup_cons] at hnd
      rcases List.mem_cons.mp hmem with h | h
      · injection h with h1 h2
        subst h1
        subst h2
        simp [lookupA]
      · have hkne : k0 ≠ k := by
          intro hkk
          subst hkk
          exact hnd.1 (List.mem_map.mpr ⟨(k0, v), h, rfl⟩)
        simp only [lookupA, if_neg hkne]
        exact ih hnd.2 h
  · exact mem_of_lookupA

/-- Two association lists with unique keys and the same lookup function
hold the same pairs, hence are permutations of each other. -/
theorem assoc_perm {κ β : Type} [DecidableEq κ] {l1 l2 : List (κ × β)}
    (h1 : (l1.map Prod.fst).Nodup) (h2 : (l2.map Prod.fst).Nodup)
    (hv : ∀ k, lookupA l1 k = lookupA l2 k) : l1.Perm l2 := by
  refine (List.perm_ext_iff_of_nodup (h1.of_map _) (h2.of_map _)).mpr ?_
  rintro ⟨k, v⟩
  rw [lookupA_mem h1, lookupA_mem h2, hv]

/-- Lookup through a key-preserving value transformation. -/
theorem lookupA_map_value {κ β γ : Type} [DecidableEq κ] (f : κ → β → γ)
    (l : List (κ × β)) (k : κ) :
    lookupA (l.map (fun p => (p.1, f p.1 p.2))) k = (lookupA l k).map (f k) := by
  induction l with
  | nil => simp [lookupA]
  | cons p rest ih =>
    obtain ⟨k0, v0⟩ := p
    by_cases hk : k0 = k
    · subst hk
      simp [lookupA]
    · simp [lookupA, hk, ih]

/-! ### Lookup characterization of the bucket and group maps -/

theorem lookupA_pushBucket_self (b : Bucket) (k : Int × Int × Int) (x : Int) :
    lookupA (pushBucket b k x) k = some ((lookupA b k).getD [] ++ [x]) := by
  induction b with
  | nil => simp [pushBucket, lookupA]
  | cons p rest ih =>
    obtain ⟨k0, xs⟩ := p
    by_cases hk : k0 = k
    · subst hk
      simp [pushBucket, lookupA]
    · simp [pushBucket, lookupA, hk, ih]

theorem lookupA_pushBucket_ne (b : Bucket) {k k' : Int × Int × Int} (x : Int)
    (h : k' ≠ k) : lookupA (pushBucket b k x) k' = lookupA b k' := by
  induction b with
  | nil => simp [pushBucket, lookupA, Ne.symm h]
  | cons p rest ih =>
    obtain ⟨k0, xs⟩ := p
    by_cases hk : k0 = k
    · subst hk
      simp [pushBucket, lookupA, Ne.symm h]
    · by_cases hk' : k0 = k'
      · subst hk'
        simp [pushBucket, lookupA, hk]
      · simp [pushBucket, lookupA, hk, hk', ih]

theorem mem_keys_pushBucket (b : Bucket) (k : Int × Int × Int) (x : Int)
    (k' : Int × Int × Int) :
    k' ∈ (pushBucket b k x).map Prod.fst ↔ (k' ∈ b.map Prod.fst ∨ k' = k) := by
  induction b with
  | nil => simp [pushBucket]
  | cons p rest ih =>
    obtain ⟨k0, xs⟩ := p
    by_cases hk : k0 = k
    · subst hk
      simp [pushBucket]
      tauto
    · simp [pushBucket, hk, ih]
      tauto

theorem nodup_keys_pushBucket {b : Bucket} (k : Int × Int × Int) (x : Int)
    (h : (b.map Prod.fst).Nodup) : ((pushBucket b k x).map Prod.fst).Nodup := by
  induction b with
  | nil => simp [pushBucket]
  | cons p rest ih =>
    obtain ⟨k0, xs⟩ := p
    simp only [List.map_cons, List.nodup_cons] at h
    by_cases hk : k0 = k
    · subst hk
      simp only [pushBucket, if_pos]
      simp only [List.map_cons, List.nodup_cons]
      exact ⟨h.1, h.2⟩
    · simp only [pushBucket, if_neg hk]
      simp only [List.map_cons, List.nodup_cons]
      refine ⟨?_, ih h.2⟩
      rw [mem_keys_pushBucket]
      rintro (hm | hm)
      · exact h.1 hm
      · exact hk hm

theorem lookupA_insertRow_self (gs : Groups) (r : RawRow) :
    lookupA (insertRow gs r) (metaOf r)
      = some (pushBucket ((lookupA gs (metaOf r)).getD []) (subOf r) r.tileX) := by
  induction gs with
  | nil => simp [insertRow, lookupA, pushBucket]
  | cons p rest ih =>
    obtain ⟨m, b⟩ := p
    by_cases hm : m = metaOf r
    · subst hm
      simp [insertRow, lookupA]
    · simp [insertRow, lookupA, hm, ih]

theorem lookupA_insertRow_ne (gs : Groups) (r : RawRow) {m : Int × String × Int}
    (h : m ≠ metaOf r) : lookupA (insertRow gs r) m = lookupA gs m := by
  induction gs with
  | nil => simp [insertRow, lookupA, Ne.symm h]
  | cons p rest ih =>
    obtain ⟨m0, b⟩ := p
    by_cases hm : m0 = metaOf r
    · subst hm
      simp [insertRow, lookupA, Ne.symm h]
    · by_cases hm' : m0 = m
      · subst hm'
        simp [insertRow, lookupA, hm]
      · simp [insertRow, lookupA, hm, hm', ih]

theorem mem_keys_insertRow (gs : Groups) (r : RawRow) (m : Int × String × Int) :
    m ∈ (insertRow gs r).map Prod.fst ↔ (m ∈ gs.map Prod.fst ∨ m = metaOf r) := by
  induction gs with
  | nil => simp [insertRow]
  | cons p rest ih =>
    obtain ⟨m0, b⟩ := p
    by_cases hm : m0 = metaOf r
    · simp only [insertRow]
      rw [if_pos hm]
      subst hm
      simp only [List.map_cons, List.mem_cons]
      tauto
    · simp only [insertRow]
      rw [if_neg hm]
      simp only [List.map_cons, List.mem_cons, ih]
      tauto

theorem nodup_keys_insertRow {gs : Groups} (r : RawRow)
    (h : (gs.map Prod.fst).Nodup) : ((insertRow gs r).map Prod.fst).Nodup := by
  induction gs with
  | nil => simp [insertRow]
  | cons p rest ih =>
    obtain ⟨m0, b⟩ := p
    simp only [List.map_cons, List.nodup_cons] at h
    by_cases hm : m0 = metaOf r
    · simp only [insertRow]
      rw [if_pos hm]
      subst hm
      simp only [List.map_cons, List.nodup_cons]
      exact ⟨h.1, h.2⟩
    · simp only [insertRow]
      rw [if_neg hm]
      simp only [List.map_cons, List.nodup_cons]
      refine ⟨?_, ih h.2⟩
      rw [mem_keys_insertRow]
      rintro (hm' | hm')
      · exact h.1 hm'
      · exact hm hm'

theorem buckets_nodup_insertRow {gs : Groups} (r : RawRow)
    (h : ∀ p ∈ gs, (p.2.map Prod.fst).Nodup) :
    ∀ p ∈ insertRow gs r, (p.2.map Prod.fst).Nodup := by
  induction gs with
  | nil =>
    intro p hp
    simp only [insertRow, List.mem_singleton] at hp
    subst hp
    simp
  | cons q rest ih =>
    obtain ⟨m0, b⟩ := q
    intro p hp
    by_cases hm : m0 = metaOf r
    · simp only [insertRow] at hp
      rw [if_pos hm] at hp
      subst hm
      rcases List.mem_cons.mp hp with hp | hp
      · subst hp
        exact nodup_keys_pushBucket _ _ (h (metaOf r, b) (List.mem_cons_self _ _))
      · exact h p (List.mem_cons_of_mem _ hp)
    · simp only [insertRow] at hp
      rw [if_neg hm] at hp
      rcases List.mem_cons.mp hp with hp | hp
      · subst hp
        exact h (m0, b) (List.mem_cons_self _ _)
      · exact ih (fun q hq => h q (List.mem_cons_of_mem _ hq)) p hp

/-! ### The grouping result as a function of the row multiset -/

/-- The bucket held for meta key `m` (empty when the key is absent). -/
def bucketAt (gs : Groups) (m : Int × String × Int) : Bucket := (lookupA gs m).getD []

/-- The column list held for `(m, k)` (empty when either key is absent). -/
def bucketXs (gs : Groups) (m : Int × String × Int) (k : Int × Int × Int) : List Int :=
  (lookupA (bucketAt gs m) k).getD []

/-- The columns of the rows with keys `(m, k)`, in row order. -/
def xsAt (rows : List RawRow) (m : Int × String × Int) (k : Int × Int × Int) : List Int :=
  (rows.filter (fun r => decide (metaOf r = m) && decide (subOf r = k))).map RawRow.tileX

theorem bucketAt_insertRow_self (gs : Groups) (r : RawRow) :
    bucketAt (insertRow gs r) (metaOf r)
      = pushBucket (bucketAt gs (metaOf r)) (subOf r) r.tileX := by
  unfold bucketAt
  rw [lookupA_insertRow_self]
  rfl

theorem bucketAt_insertRow_ne {gs : Groups} {r : RawRow} {m : Int × String × Int}
    (h : m ≠ metaOf r) : bucketAt (insertRow gs r) m = bucketAt gs m := by
  unfold bucketAt
  rw [lookupA_insertRow_ne gs r h]

theorem bucketXs_insertRow (gs : Groups) (r : RawRow) (m : Int × String × Int)
    (k : Int × Int × Int) :
    bucketXs (insertRow gs r) m k
      = if metaOf r = m ∧ subOf r = k then bucketXs gs m k ++ [r.tileX]
        else bucketXs gs m k := by
  by_cases hm : m = metaOf r
  · subst hm
    by_cases hk : k = subOf r
    · subst hk
      rw [if_pos ⟨rfl, rfl⟩]
      unfold bucketXs
      rw [bucketAt_insertRow_self, lookupA_pushBucket_self]
      rfl
    · rw [if_neg (fun hcon => hk hcon.2.symm)]
      unfold bucketXs
      rw [bucketAt_insertRow_self, lookupA_pushBucket_ne _ _ hk]
  · rw [if_neg (fun hcon => hm hcon.1.symm)]
    unfold bucketXs
    rw [bucketAt_insertRow_ne hm]

theorem bucketXs_foldl (rows : List RawRow) : ∀ (gs : Groups) (m : Int × String × Int)
    (k : Int × Int × Int),
    bucketXs (rows.foldl insertRow gs) m k = bucketXs gs m k ++ xsAt rows m k := by
  induction rows with
  | nil => intro gs m k; simp [xsAt]
  | cons r rest ih =>
    intro gs m k
    rw [List.foldl_cons, ih (insertRow gs r) m k, bucketXs_insertRow]
    unfold xsAt
    rw [List.filter_cons]
    by_cases hc : metaOf r = m ∧ subOf r = k
    · rw [if_pos hc, if_pos (by simp [hc.1, hc.2])]
      simp [List.append_assoc]
    · rw [if_neg hc,
        if_neg (by simp only [Bool.and_eq_true, decide_eq_true_eq]; exact hc)]

theorem bucketXs_groupRows (rows : List RawRow) (m : Int × String × Int)
    (k : Int × Int × Int) : bucketXs (groupRows rows) m k = xsAt rows m k := by
  have h := bucketXs_foldl rows [] m k
  simpa [groupRows, bucketXs, bucketAt, lookupA] using h

theorem foldl_keys_nodup (rows : List RawRow) : ∀ gs : Groups,
    (gs.map Prod.fst).Nodup → ((rows.foldl insertRow gs).map Prod.fst).Nodup := by
  induction rows with
  | nil => intro gs h; exact h
  | cons r rest ih => intro gs h; exact ih (insertRow gs r) (nodup_keys_insertRow r h)

theorem groupRows_keys_nodup (rows : List RawRow) :
    ((groupRows rows).map Prod.fst).Nodup :=
  foldl_keys_nodup rows [] (by simp)

theorem foldl_buckets_nodup (rows : List RawRow) : ∀ gs : Groups,
    (∀ p ∈ gs, (p.2.map Prod.fst).Nodup) →
    ∀ p ∈ rows.foldl insertRow gs, (p.2.map Prod.fst).Nodup := by
  induction rows with
  | nil => intro gs h; exact h
  | cons r rest ih => intro gs h; exact ih (insertRow gs r) (buckets_nodup_insertRow r h)

theorem groupRows_bucketAt_nodup (rows : List RawRow) (m : Int × String × Int) :
    ((bucketAt (groupRows rows) m).map Prod.fst).Nodup := by
  cases hl : lookupA (groupRows rows) m with
  | none => unfold bucketAt; rw [hl]; simp
  | some b =>
    unfold bucketAt
    rw [hl]
    exact foldl_buckets_nodup rows [] (by simp) (m, b) (mem_of_lookupA hl)

theorem mem_keys_foldl (rows : List RawRow) : ∀ (gs : Groups) (m : Int × String × Int),
    m ∈ (rows.foldl insertRow gs).map Prod.fst ↔
      (m ∈ gs.map Prod.fst ∨ ∃ r ∈ rows, metaOf r = m) := by
  induction rows with
  | nil => intro gs m; simp
  | cons r0 rest ih =>
    intro gs m
    rw [List.foldl_cons, ih (insertRow gs r0) m, mem_keys_insertRow]
    constructor
    · rintro ((h | h) | ⟨r, hr, hm⟩)
      · exact Or.inl h
      · exact Or.inr ⟨r0, List.mem_cons_self r0 rest, h.symm⟩
      · exact Or.inr ⟨r, List.mem_cons_of_mem r0 hr, hm⟩
    · rintro (h | ⟨r, hr, hm⟩)
      · exact Or.inl (Or.inl h)
      · rcases List.mem_cons.mp hr with rfl | hr
        · exact Or.inl (Or.inr hm.symm)
        · exact Or.inr ⟨r, hr, hm⟩

theorem mem_keys_groupRows (rows : List RawRow) (m : Int × String × Int) :
    m ∈ (groupRows rows).map Prod.fst ↔ ∃ r ∈ rows, metaOf r = m := by
  have h := mem_keys_foldl rows [] m
  simpa using h

theorem mem_subkeys_insertRow (gs : Groups) (r : RawRow) (m : Int × String × Int)
    (k : Int × Int × Int) :
    k ∈ (bucketAt (insertRow gs r) m).map Prod.fst ↔
      (k ∈ (bucketAt gs m).map Prod.fst ∨ (metaOf r = m ∧ subOf r = k)) := by
  by_cases hm : m = metaOf r
  · subst hm
    rw [bucketAt_insertRow_self, mem_keys_pushBucket]
    constructor
    · rintro (h | h)
      · exact Or.inl h
      · exact Or.inr ⟨rfl, h.symm⟩
    · rintro (h | ⟨-, hk⟩)
      · exact Or.inl h
      · exact Or.inr hk.symm
  · rw [bucketAt_insertRow_ne hm]
    constructor
    · exact fun h => Or.inl h
    · rintro (h | ⟨hm', -⟩)
      · exact h
      · exact absurd hm'.symm hm

theorem mem_subkeys_foldl (rows : List RawRow) : ∀ (gs : Groups)
    (m : Int × String × Int) (k : Int × Int × Int),
    k ∈ (bucketAt (rows.foldl insertRow gs) m).map Prod.fst ↔
      (k ∈ (bucketAt gs m).map Prod.fst ∨ ∃ r ∈ rows, metaOf r = m ∧ subOf r = k) := by
  induction rows with
  | nil => intro gs m k; simp
  | cons r0 rest ih =>
    intro gs m k
    rw [List.foldl_cons, ih (insertRow gs r0) m k, mem_subkeys_insertRow]
    constructor
    · rintro ((h | h) | ⟨r, hr, hmk⟩)
      · exact Or.inl h
      · exact Or.inr ⟨r0, List.mem_cons_self r0 rest, h⟩
      · exact Or.inr ⟨r, List.mem_cons_of_mem r0 hr, hmk⟩
    · rintro (h | ⟨r, hr, hmk⟩)
      · exact Or.inl (Or.inl h)
      · rcases List.mem_cons.mp hr with rfl | hr
        · exact Or.inl (Or.inr hmk)
        · exact Or.inr ⟨r, hr, hmk⟩

theorem mem_subkeys_groupRows (rows : List RawRow) (m : Int × String × Int)
    (k : Int × Int × Int) :
    k ∈ (bucketAt (groupRows rows) m).map Prod.fst ↔
      ∃ r ∈ rows, metaOf r = m ∧ subOf r = k := by
  have h := mem_subkeys_foldl rows [] m k
  simpa [bucketAt, lookupA] using h

/-! ### Permutation invariance of the built blobs -/

theorem entriesOfBucket_congr {k : Int × Int × Int} {xs xs' : List Int}
    (h : sortInts xs = sortInts xs') : entriesOfBucket k xs = entriesOfBucket k xs' := by
  unfold entriesOfBucket
  rw [h]

theorem xsAt_perm {rows rows' : List RawRow} (hp : rows.Perm rows')
    (m : Int × String × Int) (k : Int × Int × Int) :
    (xsAt rows m k).Perm (xsAt rows' m k) := (hp.filter _).map _

theorem keys_map_pair {β : Type} (b : Bucket) (f : (Int × Int × Int) → List Int → β) :
    (b.map (fun p => (p.1, f p.1 p.2))).map Prod.fst = b.map Prod.fst := by
  rw [List.map_map]
  rfl

theorem processedBucket_perm {rows rows' : List RawRow} (hp : rows.Perm rows')
    (m : Int × String × Int) :
    ((bucketAt (groupRows rows) m).map (fun p => (p.1, entriesOfBucket p.1 p.2))).Perm
      ((bucketAt (groupRows rows') m).map (fun p => (p.1, entriesOfBucket p.1 p.2))) := by
  apply assoc_perm
  · rw [keys_map_pair]
    exact groupRows_bucketAt_nodup rows m
  · rw [keys_map_pair]
    exact groupRows_bucketAt_nodup rows' m
  · intro k
    rw [lookupA_map_value, lookupA_map_value]
    cases h1 : lookupA (bucketAt (groupRows rows) m) k with
    | none =>
      cases h2 : lookupA (bucketAt (groupRows rows') m) k with
      | none => rfl
      | some xs' =>
        exfalso
        have hk1 := lookupA_eq_none.mp h1
        rw [mem_subkeys_groupRows] at hk1
        have hk2 : k ∈ (bucketAt (groupRows rows') m).map Prod.fst :=
          List.mem_map.mpr ⟨(k, xs'), mem_of_lookupA h2, rfl⟩
        rw [mem_subkeys_groupRows] at hk2
        obtain ⟨r, hr, hmk⟩ := hk2
        exact hk1 ⟨r, hp.mem_iff.mpr hr, hmk⟩
    | some xs =>
      cases h2 : lookupA (bucketAt (groupRows rows') m) k with
      | none =>
        exfalso
        have hk2 := lookupA_eq_none.mp h2
        rw [mem_subkeys_groupRows] at hk2
        have hk1 : k ∈ (bucketAt (groupRows rows) m).map Prod.fst :=
          List.mem_map.mpr ⟨(k, xs), mem_of_lookupA h1, rfl⟩
        rw [mem_subkeys_groupRows] at hk1
        obtain ⟨r, hr, hmk⟩ := hk1
        exact hk2 ⟨r, hp.mem_iff.mp hr, hmk⟩
      | some xs' =>
        have hxs : xs = xsAt rows m k := by
          rw [← bucketXs_groupRows]
          unfold bucketXs
          rw [h1]
          rfl
        have hxs' : xs' = xsAt rows' m k := by
          rw [← bucketXs_groupRows]
          unfold bucketXs
          rw [h2]
          rfl
        show some (entriesOfBucket k xs) = some (entriesOfBucket k xs')
        exact congrArg some (entriesOfBucket_congr (by
          rw [hxs, hxs']
          exact sortInts_eq_of_perm (xsAt_perm hp m k)))

theorem blobOfGroup_eq {rows rows' : List RawRow} (hp : rows.Perm rows')
    (m : Int × String × Int) :
    blobOfGroup m (bucketAt (groupRows rows) m)
      = blobOfGroup m (bucketAt (groupRows rows') m) := by
  unfold blobOfGroup
  have h1 : ∀ b : Bucket, b.flatMap (fun p => entriesOfBucket p.1 p.2)
      = (b.map (fun p => (p.1, entriesOfBucket p.1 p.2))).flatMap (fun q => q.2) := by
    intro b
    rw [List.flatMap_map]
  congr 1
  rw [h1, h1]
  exact sortEntries_eq_of_perm ((processedBucket_perm hp m).flatMap_right _)

theorem processedGroups_perm {rows rows' : List RawRow} (hp : rows.Perm rows') :
    ((groupRows rows).map (fun p => (p.1, blobOfGroup p.1 p.2))).Perm
      ((groupRows rows').map (fun p => (p.1, blobOfGroup p.1 p.2))) := by
  apply assoc_perm
  · have h : ((groupRows rows).map
        (fun p => (p.1, blobOfGroup p.1 p.2))).map Prod.fst
        = (groupRows rows).map Prod.fst := by
      rw [List.map_map]; rfl
    rw [h]
    exact groupRows_keys_nodup rows
  · have h : ((groupRows rows').map
        (fun p => (p.1, blobOfGroup p.1 p.2))).map Prod.fst
        = (groupRows rows').map Prod.fst := by
      rw [List.map_map]; rfl
    rw [h]
    exact groupRows_keys_nodup rows'
  · intro m
    rw [lookupA_map_value, lookupA_map_value]
    cases h1 : lookupA (groupRows rows) m with
    | none =>
      cases h2 : lookupA (groupRows rows') m with
      | none => rfl
      | some b' =>
        exfalso
        have hk1 := lookupA_eq_none.mp h1
        rw [mem_keys_groupRows] at hk1
        have hk2 : m ∈ (groupRows rows').map Prod.fst :=
          List.mem_map.mpr ⟨(m, b'), mem_of_lookupA h2, rfl⟩
        rw [mem_keys_groupRows] at hk2
        obtain ⟨r, hr, hm⟩ := hk2
        exact hk1 ⟨r, hp.mem_iff.mpr hr, hm⟩
    | some b =>
      cases h2 : lookupA (groupRows rows') m with
      | none =>
        exfalso
        have hk2 := lookupA_eq_none.mp h2
        rw [mem_keys_groupRows] at hk2
        have hk1 : m ∈ (groupRows rows).map Prod.fst :=
          List.mem_map.mpr ⟨(m, b), mem_of_lookupA h1, rfl⟩
        rw [mem_keys_groupRows] at hk1
        obtain ⟨r, hr, hm⟩ := hk1
        exact hk2 ⟨r, hp.mem_iff.mp hr, hm⟩
      | some b' =>
        have hb : b = bucketAt (groupRows rows) m := by
          unfold bucketAt
          rw [h1]
          rfl
        have hb' : b' = bucketAt (groupRows rows') m := by
          unfold bucketAt
          rw [h2]
          rfl
        show some (blobOfGroup m b) = some (blobOfGroup m b')
        rw [hb, hb']
        exact congrArg some (blobOfGroup_eq hp m)

/-- Meta key to blob sort key; injective, so key-distinct groups sort
deterministically. -/
theorem blobKey_blobOfGroup (m : Int × String × Int) (b : Bucket) :
    blobKey (blobOfGroup m b) = toLex (m.1, toLex (m.2.2, nameKey m.2.1)) := rfl

theorem rowsToV1_perm_inv {rows rows' : List RawRow} (hp : rows.Perm rows') :
    rowsToV1 rows = rowsToV1 rows' := by
  unfold rowsToV1
  apply sortBlobs_eq_of_perm
  · have h := (processedGroups_perm hp).map Prod.snd
    have hside : ∀ rs : List RawRow,
        ((groupRows rs).map (fun p => (p.1, blobOfGroup p.1 p.2))).map Prod.snd
          = (groupRows rs).map (fun p => blobOfGroup p.1 p.2) := by
      intro rs
      rw [List.map_map]
      rfl
    rw [hside, hside] at h
    exact h
  · have h : ((groupRows rows).map (fun p => blobOfGroup p.1 p.2)).map blobKey
        = ((groupRows rows).map Prod.fst).map
            (fun m => toLex (m.1, toLex (m.2.2, nameKey m.2.1))) := by
      rw [List.map_map, List.map_map]
      rfl
    rw [h]
    refine (groupRows_keys_nodup rows).map ?_
    intro a b hab
    simp only [toLex_inj, Prod.mk.injEq] at hab
    obtain ⟨h1, h2, h3⟩ := hab
    obtain ⟨a1, a2, a3⟩ := a
    obtain ⟨b1, b2, b3⟩ := b
    cases nameKey_injective h3
    simp_all

/-! ## Behaviour of the encode path on malformed parsed rows -/

theorem groupRowsChecked_ok_iff (rows : List JsonRow) : ∀ gs : List (String × JGroup),
    (groupRowsChecked gs rows).isOk = true ↔ ∀ r ∈ rows, (r.coord?).isSome = true := by
  induction rows with
  | nil =>
    intro gs
    simp [groupRowsChecked, Except.isOk, Except.toBool]
  | cons r rest ih =>
    intro gs
    cases hc : r.coord? with
    | none =>
      constructor
      · intro h
        simp [groupRowsChecked, hc, Except.isOk, Except.toBool] at h
      · intro h
        exact absurd (h r (List.mem_cons_self r rest)) (by simp [hc])
    | some co =>
      simp only [groupRowsChecked, hc]
      rw [ih (insertRowJ gs r co)]
      constructor
      · intro h r' hr'
        rcases List.mem_cons.mp hr' with rfl | hr'
        · simp [hc]
        · exact h r' hr'
      · intro h r' hr'
        exact h r' (List.mem_cons_of_mem r hr')

/-! ## Unknown blob shapes: decode raises, query passes over -/

theorem expandBlob_error_msg {b : Blob} {msg : String}
    (h : expandBlob b = .error msg) : msg = "Unknown compact blob shape" := by
  unfold expandBlob at h
  cases hseq : b.seq with
  | some runs => rw [hseq] at h; simp at h
  | none =>
    rw [hseq] at h
    cases hee : b.e with
    | some es => rw [hee] at h; simp at h
    | none =>
      rw [hee] at h
      exact (Except.error.inj h).symm

theorem expandRaw_unknown {doc : List Blob}
    (h : ∃ b ∈ doc, b.e = none ∧ b.seq = none) :
    expandRaw doc = .error "Unknown compact blob shape" := by
  induction doc with
  | nil => simp at h
  | cons b rest ih =>
    obtain ⟨b0, hb0, hun⟩ := h
    rcases List.mem_cons.mp hb0 with rfl | hb0
    · have hb : expandBlob b0 = .error "Unknown compact blob shape" := by
        unfold expandBlob
        rw [hun.2, hun.1]
      simp only [expandRaw, hb]
    · cases hb : expandBlob b with
      | error msg =>
        simp only [expandRaw, hb]
        rw [expandBlob_error_msg hb]
      | ok lb =>
        simp only [expandRaw, hb, ih ⟨b0, hb0, hun⟩]

theorem queryBlob_unknown {b : Blob} {x y : Int} (he : b.e = none)
    (hs : b.seq = none) : queryBlob x y b = none := by
  simp [queryBlob, he, hs]

theorem queryOneCompact_skips_unknown (doc : List Blob) (x y : Int) :
    queryOneCompact doc x y
      = queryOneCompact (doc.filter (fun b => b.e.isSome || b.seq.isSome)) x y := by
  induction doc with
  | nil => rfl
  | cons b rest ih =>
    by_cases hknown : (b.e.isSome || b.seq.isSome) = true
    · rw [List.filter_cons, if_pos hknown]
      cases hq : queryBlob x y b with
      | some h0 => rw [queryOneCompact_cons_some hq, queryOneCompact_cons_some hq]
      | none => rw [queryOneCompact_cons_none hq, queryOneCompact_cons_none hq, ih]
    · have he : b.e = none := by
        cases hbe : b.e
        · rfl
        · exfalso; exact hknown (by simp [hbe])
      have hs : b.seq = none := by
        cases hbs : b.seq
        · rfl
        · exfalso; exact hknown (by simp [hbs])
      rw [List.filter_cons, if_neg hknown,
        queryOneCompact_cons_none (queryBlob_unknown he hs), ih]

/-! ## Concrete values used by witnesses and counterexamples -/

/-- The run-count of the Tier-2 attempt, as the source computes it. -/
def runCount (v1 : V1Blob) (s : Int) : Nat := (buildRuns s (sortByXs v1.e)).length

/-- The specification's concrete scenario: one place covering columns
0-3 of row 5. -/
def scenarioRows : List RawRow :=
  [⟨1, 1, "A", 1, 9, 0, 5⟩, ⟨1, 1, "A", 1, 9, 1, 5⟩,
   ⟨1, 1, "A", 1, 9, 2, 5⟩, ⟨1, 1, "A", 1, 9, 3, 5⟩]

/-- The scenario rows in a shuffled order. -/
def shuffledRows : List RawRow :=
  [⟨1, 1, "A", 1, 9, 2, 5⟩, ⟨1, 1, "A", 1, 9, 0, 5⟩,
   ⟨1, 1, "A", 1, 9, 3, 5⟩, ⟨1, 1, "A", 1, 9, 1, 5⟩]

/-- A group of two width-4 entries on one row whose ids do not chain:
two runs out of two entries, so Tier-2 must be rejected. -/
def twoRunGroup : V1Blob := ⟨1, "A", 2, [⟨1, 1, 0, 0, 3⟩, ⟨9, 9, 0, 10, 13⟩]⟩

/-- A group whose two entries sit on different rows. -/
def mixedYGroup : V1Blob := ⟨1, "A", 2, [⟨1, 1, 0, 0, 3⟩, ⟨2, 2, 1, 4, 7⟩]⟩

/-- One placement record, fed to the encoder twice. -/
def dupRow : RawRow := ⟨1, 1, "A", 1, 9, 3, 5⟩

/-- A Tier-1 document blob for the scenario rows. -/
def v1DocBlob : Blob := { c := 1, n := "A", id := 9, e := some [⟨1, 1, 5, 0, 3⟩] }

/-- A Tier-2 document blob expanding to the same rows. -/
def v2DocBlob : Blob := { c := 1, n := "A", id := 9, y := 5, s := 4, seq := some [⟨0, 1, 1, 1⟩] }

/-- A blob of neither tier's shape: no `e` array, no `seq` array. -/
def unknownBlob : Blob := { c := 0, n := "", id := 0 }

/-- A parsed row with `id` missing but `coord` present. -/
def noIdRow : JsonRow := ⟨none, some 1, some "A", some 1, some 9, some ⟨some 3, some 5⟩⟩

/-! ## The claims -/

/-- C1: for every finite set (indeed, list) of well-formed
PlacementRecords and every stride, decoding the encoding
(`expandCompact` of the `compactFromRows` document) yields exactly the
input after the canonical sort — the decoder already applies that sort,
so its output equals the canonically sorted input, whether or not any
group qualified for Tier-2. -/
theorem roundtrip_decode_encode (rows : List RawRow) (s : Int) :
    expandCompact (compactFromRows rows s) = Except.ok (canonicalSort rows) :=
  expandCompact_compactFromRows rows s

/-- C2: querying the encoded document agrees with its decoded expansion:
any covered coordinate produces a hit whose `(id, number)` match a
decoded record at that coordinate, and any uncovered coordinate produces
no match. -/
theorem query_decode_agreement (rows : List RawRow) (s x y : Int)
    (decoded : List RawRow)
    (hdec : expandCompact (compactFromRows rows s) = .ok decoded) :
    ((∃ r ∈ decoded, r.tileX = x ∧ r.tileY = y) →
      ∃ h, queryOneCompact (compactFromRows rows s) x y = some h ∧
        ∃ r ∈ decoded, r.tileX = x ∧ r.tileY = y ∧ r.id = h.id ∧ r.number = h.number) ∧
    ((¬ ∃ r ∈ decoded, r.tileX = x ∧ r.tileY = y) →
      queryOneCompact (compactFromRows rows s) x y = none) := by
  cases hr : expandRaw (compactFromRows rows s) with
  | error msg =>
    unfold expandCompact at hdec
    rw [hr] at hdec
    simp [Except.map] at hdec
  | ok l =>
    unfold expandCompact at hdec
    rw [hr] at hdec
    simp only [Except.map, Except.ok.injEq] at hdec
    obtain ⟨hsound, hcompl⟩ := queryOneCompact_agree (compactFromRows rows s) l x y hr
    have hmemiff : ∀ r : RawRow, r ∈ decoded ↔ r ∈ l := by
      intro r
      rw [← hdec]
      exact (sortRows_perm l).mem_iff
    constructor
    · rintro ⟨r, hrd, hrx, hry⟩
      have hsome := hcompl ⟨r, (hmemiff r).mp hrd, hrx, hry⟩
      obtain ⟨h, hh⟩ := Option.isSome_iff_exists.mp hsome
      refine ⟨h, hh, ?_⟩
      obtain ⟨r', hr'l, hprops⟩ := hsound h hh
      exact ⟨r', (hmemiff r').mpr hr'l, hprops⟩
    · intro hnone
      cases hq : queryOneCompact (compactFromRows rows s) x y with
      | none => rfl
      | some h =>
        obtain ⟨r', hr'l, hx', hy', -, -⟩ := hsound h hq
        exact absurd ⟨r', (hmemiff r').mpr hr'l, hx', hy'⟩ hnone

/-- C2 witness: the specification's scenario, queried at the covered
coordinate (2, 5). -/
theorem query_decode_agreement_witness :
    ∃ h, queryOneCompact (compactFromRows scenarioRows 4) 2 5 = some h ∧
      ∃ r ∈ scenarioRows, r.tileX = 2 ∧ r.tileY = 5 ∧ r.id = h.id ∧ r.number = h.number :=
  (query_decode_agreement scenarioRows 4 2 5 scenarioRows (by rfl)).1 (by decide)

/-- C3: on a non-empty group meeting the Tier-2 preconditions (one `y`,
every width equal to the stride), the compactor accepts exactly when the
computed run count is 1 or at most half the entry count, and returns
null otherwise. -/
theorem tier2_acceptance_iff (v1 : V1Blob) (s : Int) (hne : v1.e ≠ [])
    (hy : ∀ e1 ∈ v1.e, ∀ e2 ∈ v1.e, e1.y = e2.y)
    (hw : ∀ e ∈ v1.e, e.xe - e.xs + 1 = s) :
    (v1ToV2IfPossible v1 s).isSome ↔
      (runCount v1 s = 1 ∨ 2 * runCount v1 s ≤ v1.e.length) := by
  cases hv : v1.e with
  | nil => exact absurd hv hne
  | cons e0 rest =>
    have hall : (e0 :: rest).all
        (fun en => decide (en.y = e0.y) && decide (en.xe - en.xs + 1 = s)) = true := by
      rw [List.all_eq_true]
      intro en hen
      rw [Bool.and_eq_true, decide_eq_true_eq, decide_eq_true_eq]
      have hmem : en ∈ v1.e := by rw [hv]; exact hen
      have h0 : e0 ∈ v1.e := by rw [hv]; exact List.mem_cons_self e0 rest
      exact ⟨hy en hmem e0 h0, hw en hmem⟩
    simp only [v1ToV2IfPossible, runCount, hv]
    rw [if_pos hall]
    by_cases hacc : (buildRuns s (sortByXs (e0 :: rest))).length = 1 ∨
        2 * (buildRuns s (sortByXs (e0 :: rest))).length ≤ (e0 :: rest).length
    · rw [if_pos hacc]
      exact iff_of_true rfl hacc
    · rw [if_neg hacc]
      exact iff_of_false (by simp) hacc

/-- C3 witness: two width-4 entries on one row whose ids do not chain
give two runs over two entries, so the right side is false and the
compactor returns null — Tier-1 is kept. -/
theorem tier2_acceptance_iff_witness :
    (v1ToV2IfPossible twoRunGroup 4).isSome ↔
      (runCount twoRunGroup 4 = 1 ∨ 2 * runCount twoRunGroup 4 ≤ twoRunGroup.e.length) :=
  tier2_acceptance_iff twoRunGroup 4 (by decide) (by decide) (by decide)

/-- C4: a non-empty group violating either Tier-2 precondition (two
entries with different `y`, or an entry of width other than the stride)
is never converted — `v1ToV2IfPossible` returns null; and the empty
group becomes the explicit empty Tier-2 sentinel with `y = 0` and no
runs, not null. -/
theorem tier2_preconditions_and_empty_sentinel (v1 : V1Blob) (s : Int) :
    (v1.e ≠ [] →
      ((∃ e1 ∈ v1.e, ∃ e2 ∈ v1.e, e1.y ≠ e2.y) ∨ ∃ e ∈ v1.e, e.xe - e.xs + 1 ≠ s) →
      v1ToV2IfPossible v1 s = none) ∧
    (∀ (c : Int) (nm : String) (cid : Int),
      v1ToV2IfPossible ⟨c, nm, cid, []⟩ s
        = some { c := c, n := nm, id := cid, y := 0, s := s, e := none, seq := some [] }) := by
  constructor
  · intro hne hbad
    cases hv : v1.e with
    | nil => exact absurd hv hne
    | cons e0 rest =>
      have hallf : ¬ ((e0 :: rest).all
          (fun en => decide (en.y = e0.y) && decide (en.xe - en.xs + 1 = s)) = true) := by
        intro hall
        rw [List.all_eq_true] at hall
        rcases hbad with ⟨e1, he1, e2, he2, hy12⟩ | ⟨en, hen, hwbad⟩
        · rw [hv] at he1 he2
          have h1 := hall e1 he1
          have h2 := hall e2 he2
          rw [Bool.and_eq_true, decide_eq_true_eq, decide_eq_true_eq] at h1 h2
          exact hy12 (h1.1.trans h2.1.symm)
        · rw [hv] at hen
          have h1 := hall en hen
          rw [Bool.and_eq_true, decide_eq_true_eq, decide_eq_true_eq] at h1
          exact hwbad h1.2
      simp only [v1ToV2IfPossible, hv]
      rw [if_neg hallf]
  · intro c nm cid
    rfl

/-- C4 witness: a group mixing rows 0 and 1 stays Tier-1, and the empty
group becomes the empty sentinel. -/
theorem tier2_preconditions_witness :
    v1ToV2IfPossible mixedYGroup 4 = none ∧
    v1ToV2IfPossible ⟨7, "B", 8, []⟩ 4
      = some { c := 7, n := "B", id := 8, y := 0, s := 4, e := none, seq := some [] } :=
  ⟨(tier2_preconditions_and_empty_sentinel mixedYGroup 4).1 (by decide) (by decide),
   (tier2_preconditions_and_empty_sentinel mixedYGroup 4).2 7 "B" 8⟩

/-- C5 counterexample: the interval builder does not deduplicate.  Two
identical records produce two identical single-column entries, so the
duplicated column is covered twice, not once: the claim that the column
set is deduplicated before run-merging is false on this input. -/
theorem duplicates_double_cover_counterexample :
    rowsToV1 [dupRow, dupRow]
      = [⟨1, "A", 9, [⟨1, 1, 5, 3, 3⟩, ⟨1, 1, 5, 3, 3⟩]⟩] ∧
    ((rowsToV1 [dupRow, dupRow]).flatMap expandV1).count dupRow = 2 := by
  constructor
  · rfl
  · rfl

/-- C5 amended: duplicates are not filtered — each occurrence of a
`(id, number, y, tileX)` combination contributes its own coverage, and
the emitted entries cover the input columns with their multiplicities
(the expansion of `rowsToV1` is a permutation of the input rows,
duplicates included). -/
theorem rowsToV1_expansion_counts_duplicates (rows : List RawRow) :
    ((rowsToV1 rows).flatMap expandV1).Perm rows :=
  rowsToV1_expand rows

/-- C6: the decoder's output is sorted by the canonical key
`(cityId, countryId, name, tileY, tileX, id, number)`, and any two
documents whose raw expansions hold the same multiset of records decode
to equal outputs, independent of blob order and tier choice. -/
theorem decoder_canonical_order :
    (∀ (doc : List Blob) (rows : List RawRow),
      expandCompact doc = .ok rows → List.Sorted rowLE rows) ∧
    (∀ (d1 d2 : List Blob) (l1 l2 : List RawRow),
      expandRaw d1 = .ok l1 → expandRaw d2 = .ok l2 → l1.Perm l2 →
      expandCompact d1 = expandCompact d2) := by
  constructor
  · intro doc rows hdec
    cases hr : expandRaw doc with
    | error msg =>
      unfold expandCompact at hdec
      rw [hr] at hdec
      simp [Except.map] at hdec
    | ok l =>
      unfold expandCompact at hdec
      rw [hr] at hdec
      simp only [Except.map, Except.ok.injEq] at hdec
      rw [← hdec]
      exact sortRows_sorted l
  · intro d1 d2 l1 l2 h1 h2 hp
    unfold expandCompact
    rw [h1, h2]
    simp only [Except.map]
    unfold canonicalSort
    rw [sortRows_eq_of_perm hp]

/-- C7: encoding is independent of input order — any permutation of the
records yields the identical CompactDocument. -/
theorem encode_order_independent (rows rows' : List RawRow) (s : Int)
    (hp : rows.Perm rows') : compactFromRows rows s = compactFromRows rows' s := by
  unfold compactFromRows
  rw [rowsToV1_perm_inv hp]

/-- C7 witness: the scenario rows and a shuffle of them encode to the
same document. -/
theorem encode_order_independent_witness :
    compactFromRows scenarioRows 4 = compactFromRows shuffledRows 4 :=
  encode_order_independent scenarioRows shuffledRows 4 (by decide)

/-- C8 counterexample: a record missing the required `id` field is not
well-formed, yet the grouping loop completes without any error — the
encode path does not fail fast on malformed records, so the claim is
false at this input. -/
theorem no_validation_counterexample :
    wellFormedJ noIdRow = false ∧
    groupRowsChecked [] [noIdRow]
      = .ok [("1|A|9", ⟨some 1, some "A", some 9,
          [((none, some 1, some 5), [some 3])]⟩)] := by
  constructor
  · rfl
  · rfl

/-- C8 amended: the encode path performs no validation of required
fields.  Its grouping loop fails only when a record has no `coord`
object at all — a TypeError raised while reading the coordinate during
grouping, not a descriptive validation error before it — and records
missing any other required field (id, cityId, name, number, countryId,
or the tile fields inside coord) are silently grouped. -/
theorem encode_grouping_failure_iff (rows : List JsonRow) :
    (groupRowsChecked [] rows).isOk = true ↔
      ∀ r ∈ rows, (r.coord?).isSome = true :=
  groupRowsChecked_ok_iff rows []

/-- C9 counterexample: on a document holding one blob of neither tier's
shape, decoding raises the fatal error but the query silently passes the
blob over and reports an ordinary no-match — the claim that both
operations raise is false at this input. -/
theorem unknown_blob_query_counterexample :
    expandCompact [unknownBlob] = .error "Unknown compact blob shape" ∧
    queryOneCompact [unknownBlob] 0 0 = none :=
  ⟨rfl, rfl⟩

/-- C9 amended: an unrecognized blob shape is fatal for the decode
operation (`expandCompact` raises `Unknown compact blob shape`), but
`queryOneCompact` has no such branch: it silently skips every blob of
unknown shape, behaving exactly as if those blobs were absent. -/
theorem unknown_blob_decode_error_query_skip (doc : List Blob) (x y : Int) :
    ((∃ b ∈ doc, b.e = none ∧ b.seq = none) →
      expandCompact doc = .error "Unknown compact blob shape") ∧
    queryOneCompact doc x y
      = queryOneCompact (doc.filter (fun b => b.e.isSome || b.seq.isSome)) x y := by
  constructor
  · intro h
    unfold expandCompact
    rw [expandRaw_unknown h]
    rfl
  · exact queryOneCompact_skips_unknown doc x y

/-- C10: both the decoder and the query discriminate tiers by testing
`seq` first and `e` second, so a blob carrying both arrays is processed
as Tier-2 and its `e` field is ignored by both operations. -/
theorem tier_discrimination_seq_first (c : Int) (nm : String) (cid y s : Int)
    (es : List V1Entry) (runs : List V2Run) (x yq : Int) :
    expandBlob { c := c, n := nm, id := cid, y := y, s := s, e := some es, seq := some runs }
      = expandBlob { c := c, n := nm, id := cid, y := y, s := s, e := none, seq := some runs } ∧
    expandBlob { c := c, n := nm, id := cid, y := y, s := s, e := some es, seq := some runs }
      = .ok (runs.flatMap (expandRun c nm cid y s)) ∧
    queryBlob x yq { c := c, n := nm, id := cid, y := y, s := s, e := some es, seq := some runs }
      = queryBlob x yq { c := c, n := nm, id := cid, y := y, s := s, e := none, seq := some runs } ∧
    expandCompact [{ c := c, n := nm, id := cid, y := y, s := s, e := some es, seq := some runs }]
      = expandCompact [{ c := c, n := nm, id := cid, y := y, s := s, e := none, seq := some runs }] ∧
    queryOneCompact [{ c := c, n := nm, id := cid, y := y, s := s, e := some es, seq := some runs }] x yq
      = queryOneCompact [{ c := c, n := nm, id := cid, y := y, s := s, e := none, seq := some runs }] x yq :=
  ⟨rfl, rfl, rfl, rfl, rfl⟩

end Wplace
